import Mathlib

/-!
Verification development for the epub-mathml-converter pipeline.

The TypeScript sources are shallowly embedded here: document and path text is
modelled as `List Char` (JavaScript strings), fallible operations return
`Except`, and the filesystem pieces each function touches are passed in
explicitly (a scratch tree is a list of path/content pairs).  Definitions keep
the source functions' names and mirror their code, not the prose that
describes them; the external MathJax/Resvg renderers are abstracted as
function parameters, exactly as the program receives them.
-/

set_option maxRecDepth 8000

/-- Backslash character (code point 92), named to keep literals unambiguous. -/
def bslash : Char := Char.ofNat 92

/-- Double-quote character (code point 34). -/
def dquote : Char := Char.ofNat 34

/-- Single-quote character (code point 39). -/
def squote : Char := Char.ofNat 39

/-! ## Path sandbox model (part_001 lines 10-20)

`path.resolve` is modelled on canonical segment lists: resolving an absolute
path splits it on `/`, drops empty and `.` segments, and lets `..` pop the
last segment, clamped at the filesystem root.  The program only resolves
absolute roots (they come from `mkdtemp`), so the process working directory
never enters the picture. -/

/-- Replace every backslash by a forward slash, modelling
`entryName.replace(/\\/g, "/")` from `resolveArchiveEntryPath`. -/
def normSlashes (s : List Char) : List Char :=
  s.map fun c => if c = bslash then '/' else c

/-- Split a path string on `/` separators; the result is always nonempty. -/
def splitSegs : List Char → List (List Char)
  | [] => [[]]
  | c :: cs =>
    if c = '/' then [] :: splitSegs cs
    else
      match splitSegs cs with
      | [] => [[c]]
      | s :: ss => (c :: s) :: ss

/-- Fold path segments onto a canonical base the way `path.resolve` does:
empty and `.` segments are skipped, `..` pops the last base segment (staying
put at the filesystem root), anything else is appended. -/
def resolveSegs : List (List Char) → List (List Char) → List (List Char)
  | base, [] => base
  | base, seg :: rest =>
    if seg = [] ∨ seg = ['.'] then resolveSegs base rest
    else if seg = ['.', '.'] then resolveSegs base.dropLast rest
    else resolveSegs (base ++ [seg]) rest

/-- Join segments with `/` separators. -/
def joinSegs : List (List Char) → List Char
  | [] => []
  | [s] => s
  | s :: s2 :: rest => s ++ '/' :: joinSegs (s2 :: rest)

/-- Render canonical absolute-path segments back into a path string. -/
def segsToPath (segs : List (List Char)) : List Char :=
  '/' :: joinSegs segs

/-- Canonical segments of an absolute path, modelling `path.resolve(root)`. -/
def resolveAbs (s : List Char) : List (List Char) :=
  resolveSegs [] (splitSegs s)

/-- Model of `path.resolve(rootPath, name)`: an absolute `name` ignores the
root, a relative one is resolved beneath it. -/
def resolveFromRoot (rootSegs : List (List Char)) (name : List Char) : List (List Char) :=
  if name.head? = some '/' then resolveSegs [] (splitSegs name)
  else resolveSegs rootSegs (splitSegs name)

/-- Model of `resolveArchiveEntryPath` (part_001 lines 10-20): normalize
backslashes, resolve the entry name against the extraction root, and throw
`Unsafe archive entry path` - the spec's `UnsafePathError`, modelled as
`Except.error ()` - unless the resolved path equals the root or starts with
`root + path.sep`. -/
def resolveArchiveEntryPath (root entryName : List Char) : Except Unit (List Char) :=
  let normalizedEntryName := normSlashes entryName
  let rootPath := segsToPath (resolveAbs root)
  let outputPath := segsToPath (resolveFromRoot (resolveAbs root) normalizedEntryName)
  if outputPath ≠ rootPath ∧ (rootPath ++ ['/']).isPrefixOf outputPath = false then
    .error ()
  else
    .ok outputPath

/-! ## Container model (part_001 lines 22-130) -/

/-- One output-archive entry: archive path, byte content (modelled as text),
and whether the entry is stored compressed. -/
structure ZipEntry where
  name : List Char
  data : List Char
  compress : Bool
deriving DecidableEq

/-- Model of `extractEpub` (part_001 lines 46-94): entries are processed in
the container's order, each validated by `resolveArchiveEntryPath` before any
write; directory entries (name ending in `/`) only create directories; file
entries are written at the resolved destination.  The first failure settles
the promise with that error, aborting the remaining entries while keeping the
files already written. -/
def extractEpub (root : List Char) : List ZipEntry → List (List Char × List Char) × Option Unit
  | [] => ([], none)
  | e :: rest =>
    match resolveArchiveEntryPath root e.name with
    | .error _ => ([], some ())
    | .ok dest =>
      if e.name.getLast? = some '/' then extractEpub root rest
      else
        let out := extractEpub root rest
        ((dest, e.data) :: out.1, out.2)

/-- First content stored under the given archive-relative path, modelling the
`stat` existence check on the `mimetype` file plus the later `addFile` read. -/
def lookupPath (k : List Char) : List (List Char × List Char) → Option (List Char)
  | [] => none
  | pc :: rest => if pc.1 = k then some pc.2 else lookupPath k rest

/-- The sort of `repackEpub` uses `a.localeCompare(b)`, the runtime's
locale-aware collation.  That collation lives in the JavaScript engine's ICU
data, not in this repository's source, and it is not code-point order (it
puts `a.txt` before `B.txt`), so the model takes the comparator as an
abstract parameter `r` on archive paths - required to be decidable so the
sort can run, and total and transitive where a sortedness conclusion needs
it.  `entryLe r` lifts it to path/content pairs, comparing by path as the
source compares full path strings (which share the root prefix, so ordering
by relative path is the same). -/
def entryLe (r : List Char → List Char → Prop) (a b : List Char × List Char) : Prop :=
  r a.1 b.1

instance entryLeDecidable (r : List Char → List Char → Prop) [DecidableRel r] :
    DecidableRel (entryLe r) :=
  fun a b => inferInstanceAs (Decidable (r a.1 b.1))

instance entryLeTotal (r : List Char → List Char → Prop) [IsTotal (List Char) r] :
    IsTotal (List Char × List Char) (entryLe r) :=
  ⟨fun a b => IsTotal.total a.1 b.1⟩

instance entryLeTrans (r : List Char → List Char → Prop) [IsTrans (List Char) r] :
    IsTrans (List Char × List Char) (entryLe r) :=
  ⟨fun a b c h1 h2 => IsTrans.trans a.1 b.1 c.1 h1 h2⟩

/-- Code-point lexicographic order on paths: one concrete total decidable
comparator, used only to instantiate the abstract comparator in witnesses
and counterexamples; it is not a model of the locale collation. -/
def codePointLe (a b : List Char) : Prop := a ≤ b

instance codePointLeDecidable : DecidableRel codePointLe :=
  fun a b => inferInstanceAs (Decidable (a ≤ b))

instance codePointLeTotal : IsTotal (List Char) codePointLe :=
  ⟨fun a b => le_total a b⟩

instance codePointLeTrans : IsTrans (List Char) codePointLe :=
  ⟨fun _ _ _ h1 h2 => le_trans h1 h2⟩

/-- Demonstration comparator consistent with the documented root-locale
collation on ASCII file names (ECMA-402 backed by ICU): the primary
comparison ignores letter case, ties are broken by code point.  Under it -
as under `localeCompare` in ICU-backed runtimes - `a.txt` sorts before
`B.txt`, while code-point order puts `B.txt` first. -/
def localeLikeLe (a b : List Char) : Prop :=
  a.map Char.toLower < b.map Char.toLower ∨
    (a.map Char.toLower = b.map Char.toLower ∧ a ≤ b)

instance localeLikeLeDecidable : DecidableRel localeLikeLe :=
  fun a b => inferInstanceAs (Decidable (a.map Char.toLower < b.map Char.toLower ∨
    (a.map Char.toLower = b.map Char.toLower ∧ a ≤ b)))

/-- Model of `repackEpub` (part_001 lines 96-130) over a scratch tree given as
archive-relative file paths with contents (the result of the `getAllFiles`
walk, made relative), parametrized by the `localeCompare` comparator `r`
(see `entryLe`): fail when the root-level `mimetype` file is missing,
otherwise emit it first and uncompressed, followed by every other file
sorted by the comparator, each compressed. -/
def repackEpub (r : List Char → List Char → Prop) [DecidableRel r]
    (tree : List (List Char × List Char)) : Except Unit (List ZipEntry) :=
  match lookupPath "mimetype".data tree with
  | none => .error ()
  | some d =>
    let others :=
      List.insertionSort (entryLe r) (tree.filter fun pc => decide (pc.1 ≠ "mimetype".data))
    .ok (⟨"mimetype".data, d, false⟩ :: others.map fun pc => ⟨pc.1, pc.2, true⟩)

example : splitSegs "a/b".data = ["a".data, "b".data] := by decide

example : resolveArchiveEntryPath "/tmp/extract".data "../escape.txt".data = .error () := by rfl

example :
    resolveArchiveEntryPath "/tmp/extract".data "OEBPS/ch1.xhtml".data
      = .ok "/tmp/extract/OEBPS/ch1.xhtml".data := by rfl

/-! ## Document transformer model (part_000 lines 29-209)

Regex matching from the source is embedded as deterministic scans: the regex
engine tries each start position from the left, and every pattern used by the
program matches deterministically at a given position (lazy bodies stop at
the first closing tag, greedy character classes are maximal runs). -/

/-- Case-insensitive pattern test at the head of a string, modelling the `i`
regex flag (ASCII case folding, which is what applies to ASCII patterns). -/
def startsWithCI : List Char → List Char → Bool
  | [], _ => true
  | _ :: _, [] => false
  | p :: ps, c :: cs => (p.toLower == c.toLower) && startsWithCI ps cs

/-- Word characters of the regex `\b` boundary and `\w` class: `[A-Za-z0-9_]`. -/
def wordChar (c : Char) : Bool :=
  c.isAlpha || c.isDigit || c == '_'

/-- Whitespace class `\s` of JavaScript regexes. -/
def jsWhitespace (c : Char) : Bool :=
  let n := c.toNat
  (9 ≤ n && n ≤ 13) || n == 32 || n == 160 || n == 0x1680 ||
    (0x2000 ≤ n && n ≤ 0x200a) || n == 0x2028 || n == 0x2029 ||
    n == 0x202f || n == 0x205f || n == 0x3000 || n == 0xfeff

/-- Characters matched by the regex `.` without the `s` flag: everything but
line terminators. -/
def dotChar (c : Char) : Bool :=
  !(c == '\n' || c == '\r' || c.toNat == 0x2028 || c.toNat == 0x2029)

/-- Drop the greedy `\s*` of a pattern. -/
def skipWS (s : List Char) : List Char := s.dropWhile jsWhitespace

/-- Head of the math-node pattern `<math\b` at this position. -/
def mathOpenAt (s : List Char) : Bool :=
  startsWithCI "<math".data s &&
    (match s.drop 5 with
     | [] => true
     | c :: _ => !wordChar c)

/-- Split a string at the first position where `<math\b` matches, returning
the text before it and the suffix starting at the opening tag. -/
def findOpenSplit : List Char → Option (List Char × List Char)
  | [] => none
  | c :: cs =>
    if mathOpenAt (c :: cs) then some ([], c :: cs)
    else
      match findOpenSplit cs with
      | none => none
      | some (pre, suf) => some (c :: pre, suf)

/-- Split a string at the first occurrence of `</math>`, returning the text
up to and including the closing tag, and the rest (the lazy `[\s\S]*?` body
of the math pattern stops at the first closing tag). -/
def findCloseSplit : List Char → Option (List Char × List Char)
  | [] => none
  | c :: cs =>
    if startsWithCI "</math>".data (c :: cs) then
      some ((c :: cs).take 7, (c :: cs).drop 7)
    else
      match findCloseSplit cs with
      | none => none
      | some (mid, rest) => some (c :: mid, rest)

theorem findOpenSplit_spec {s pre suf : List Char}
    (h : findOpenSplit s = some (pre, suf)) : pre ++ suf = s ∧ suf ≠ [] := by
  induction s generalizing pre suf with
  | nil => simp [findOpenSplit] at h
  | cons c cs ih =>
    rw [findOpenSplit] at h
    by_cases hm : mathOpenAt (c :: cs) = true
    · rw [if_pos hm] at h
      simp only [Option.some.injEq, Prod.mk.injEq] at h
      obtain ⟨h1, h2⟩ := h
      subst h1; subst h2
      exact ⟨rfl, by simp⟩
    · rw [if_neg hm] at h
      cases hr : findOpenSplit cs with
      | none => rw [hr] at h; exact absurd h (by simp)
      | some pr =>
        obtain ⟨p1, p2⟩ := pr
        rw [hr] at h
        simp only [Option.some.injEq, Prod.mk.injEq] at h
        obtain ⟨h1, h2⟩ := h
        subst h1; subst h2
        obtain ⟨hp, hn⟩ := ih hr
        exact ⟨by rw [List.cons_append, hp], hn⟩

theorem findCloseSplit_spec {s mid rest : List Char}
    (h : findCloseSplit s = some (mid, rest)) :
    mid ++ rest = s ∧ 0 < mid.length := by
  induction s generalizing mid rest with
  | nil => simp [findCloseSplit] at h
  | cons c cs ih =>
    rw [findCloseSplit] at h
    by_cases hm : startsWithCI "</math>".data (c :: cs) = true
    · rw [if_pos hm] at h
      simp only [Option.some.injEq, Prod.mk.injEq] at h
      obtain ⟨h1, h2⟩ := h
      subst h1; subst h2
      refine ⟨List.take_append_drop _ _, ?_⟩
      simp
    · rw [if_neg hm] at h
      cases hr : findCloseSplit cs with
      | none => rw [hr] at h; exact absurd h (by simp)
      | some pr =>
        obtain ⟨p1, p2⟩ := pr
        rw [hr] at h
        simp only [Option.some.injEq, Prod.mk.injEq] at h
        obtain ⟨h1, h2⟩ := h
        subst h1; subst h2
        obtain ⟨hp, hn⟩ := ih hr
        exact ⟨by rw [List.cons_append, hp], by simp⟩

theorem scanStep_decreasing {s pre suf mid rest : List Char}
    (h1 : findOpenSplit s = some (pre, suf))
    (h2 : findCloseSplit (suf.drop 5) = some (mid, rest)) :
    rest.length < s.length := by
  obtain ⟨hs, hsuf⟩ := findOpenSplit_spec h1
  obtain ⟨hm, hmlen⟩ := findCloseSplit_spec h2
  have e1 : pre.length + suf.length = s.length := by
    rw [← hs, List.length_append]
  have e2 : mid.length + rest.length = suf.length - 5 := by
    rw [← List.length_append, hm, List.length_drop]
  have e3 : 0 < suf.length := List.length_pos.mpr hsuf
  omega

/-- Fueled decomposition of a document into the alternation of plain text
and complete math nodes found by the global pattern
`<math\\b[\\s\\S]*?<\\/math>`, scanning left to right and resuming after each
match.  Fuel makes the recursion structural so that terms reduce; the
wrapper `mathScan` supplies sufficient fuel and fuel is otherwise
irrelevant (`mathScanF_congr`). -/
def mathScanF : Nat → List Char → List (List Char ⊕ List Char)
  | 0, s => [.inl s]
  | fuel + 1, s =>
    match findOpenSplit s with
    | none => [.inl s]
    | some (pre, suf) =>
      match findCloseSplit (suf.drop 5) with
      | none => [.inl s]
      | some (mid, rest) => .inl pre :: .inr (suf.take 5 ++ mid) :: mathScanF fuel rest

/-- Math-node decomposition of a document. -/
def mathScan (s : List Char) : List (List Char ⊕ List Char) := mathScanF s.length s

theorem mathScanF_congr :
    ∀ {f1 f2 : Nat} {s : List Char}, s.length ≤ f1 → s.length ≤ f2 →
      mathScanF f1 s = mathScanF f2 s := by
  intro f1
  induction f1 with
  | zero =>
    intro f2 s h1 h2
    have hs : s = [] := List.length_eq_zero.mp (Nat.le_zero.mp h1)
    subst hs
    cases f2 with
    | zero => rfl
    | succ f => simp [mathScanF, findOpenSplit]
  | succ f ih =>
    intro f2 s h1 h2
    cases f2 with
    | zero =>
      have hs : s = [] := List.length_eq_zero.mp (Nat.le_zero.mp h2)
      subst hs
      simp [mathScanF, findOpenSplit]
    | succ g =>
      rw [mathScanF, mathScanF]
      cases ho : findOpenSplit s with
      | none => rfl
      | some pr =>
        obtain ⟨pre, suf⟩ := pr
        simp only
        cases hc : findCloseSplit (suf.drop 5) with
        | none => rfl
        | some mr =>
          obtain ⟨mid, rest⟩ := mr
          simp only
          have hlt : rest.length < s.length := scanStep_decreasing ho hc
          rw [@ih g rest (by omega) (by omega)]

theorem mathScan_eq (s : List Char) :
    mathScan s =
      match findOpenSplit s with
      | none => [.inl s]
      | some (pre, suf) =>
        match findCloseSplit (suf.drop 5) with
        | none => [.inl s]
        | some (mid, rest) => .inl pre :: .inr (suf.take 5 ++ mid) :: mathScan rest := by
  unfold mathScan
  cases hs : s with
  | nil => simp [mathScanF, findOpenSplit]
  | cons c cs =>
    rw [show (c :: cs).length = cs.length + 1 by simp, mathScanF]
    cases ho : findOpenSplit (c :: cs) with
    | none => rfl
    | some pr =>
      obtain ⟨pre, suf⟩ := pr
      simp only
      cases hc : findCloseSplit (suf.drop 5) with
      | none => rfl
      | some mr =>
        obtain ⟨mid, rest⟩ := mr
        simp only
        have hlt : rest.length < (c :: cs).length := scanStep_decreasing ho hc
        simp only [List.length_cons] at hlt
        rw [@mathScanF_congr cs.length rest.length rest (Nat.le_of_lt_succ hlt) (le_refl rest.length)]

/-- Model of `mathPattern.test(original)`: does the document contain at
least one complete math node? -/
def hasMathNode (s : List Char) : Bool :=
  match findOpenSplit s with
  | none => false
  | some pr => (findCloseSplit (pr.2.drop 5)).isSome

/-- Lazy quoted-value body of `(["'])(.*?)\1`: characters up to the first
closing quote, each of which must be matched by `.` (no line terminators). -/
def takeValue (q : Char) : List Char → Option (List Char)
  | [] => none
  | c :: cs =>
    if c == q then some []
    else if dotChar c then (takeValue q cs).map (c :: ·)
    else none

/-- Attempt of the display-attribute pattern `\sdisplay\s*=\s*(["'])(.*?)\1`
at the current position, returning the captured value on success. -/
def tryDisplayAt (s : List Char) : Option (List Char) :=
  match s with
  | [] => none
  | c :: cs =>
    if jsWhitespace c && startsWithCI "display".data cs then
      match skipWS (cs.drop 7) with
      | '=' :: t2 =>
        match skipWS t2 with
        | q :: t3 =>
          if q == dquote || q == squote then takeValue q t3 else none
        | [] => none
      | _ => none
    else none

/-- First match of the display-attribute pattern anywhere in the node text,
modelling `mathXml.match(/\sdisplay\s*=\s*(["'])(.*?)\1/i)`. -/
def findDisplayValue : List Char → Option (List Char)
  | [] => none
  | c :: cs =>
    match tryDisplayAt (c :: cs) with
    | some v => some v
    | none => findDisplayValue cs

/-- Single-character piece of `String.prototype.toLowerCase`, exact on every
code point the `=== "block"` comparison can see: ASCII uppercase letters map
down by 32 (as Unicode maps them), and U+212A KELVIN SIGN - the one code
point outside ASCII whose Unicode lowercase is a letter of `block` - maps to
`k`.  Every other code point is left unchanged; its real lowercase is never
a character of `block` (the only other mapping into ASCII is U+0130, whose
full lowercase is `i` followed by U+0307), so leaving it fixed cannot change
whether the lowercased value equals `block`. -/
def jsLowerChar (c : Char) : Char :=
  if 65 ≤ c.toNat ∧ c.toNat ≤ 90 then Char.ofNat (c.toNat + 32)
  else if c.toNat = 0x212A then 'k'
  else c

/-- Lowercasing of the display-attribute value, modelling `toLowerCase` for
the comparison with `block` (see `jsLowerChar`). -/
def jsToLower (s : List Char) : List Char := s.map jsLowerChar

/-- Display mode of a math node (part_000 lines 153-154):
`(displayMatch?.[2] ?? "inline").toLowerCase() === "block"`. -/
def displayModeOf (mathXml : List Char) : Bool :=
  jsToLower ((findDisplayValue mathXml).getD "inline".data) == "block".data

/-- The attribute values whose Unicode lowercase is exactly `block`: five
characters, respectively `B` or `b`, `L` or `l`, `O` or `o`, `C` or `c`,
and `K`, `k` or U+212A KELVIN SIGN. -/
def jsLowersToBlock (v : List Char) : Prop :=
  ∃ c0 c1 c2 c3 c4, v = [c0, c1, c2, c3, c4] ∧
    (c0 = 'B' ∨ c0 = 'b') ∧ (c1 = 'L' ∨ c1 = 'l') ∧ (c2 = 'O' ∨ c2 = 'o') ∧
    (c3 = 'C' ∨ c3 = 'c') ∧ (c4 = 'K' ∨ c4 = 'k' ∨ c4 = Char.ofNat 0x212A)

example : displayModeOf "<math display=\"block\"><mi>x</mi></math>".data = true := by decide

example : displayModeOf "<math><mi>x</mi></math>".data = false := by decide

example : displayModeOf "<math display=\"BLOCK\"><mi>x</mi></math>".data = true := by decide

/-- Case-insensitive infix test, modelling an unanchored regex literal. -/
def containsCI (pat : List Char) : List Char → Bool
  | [] => startsWithCI pat []
  | c :: cs => startsWithCI pat (c :: cs) || containsCI pat cs

/-- Split at the first case-insensitive occurrence of `pat`, returning the
text before the occurrence and the text after it. -/
def splitAtCI (pat : List Char) : List Char → Option (List Char × List Char)
  | [] => if startsWithCI pat [] then some ([], []) else none
  | c :: cs =>
    if startsWithCI pat (c :: cs) then some ([], (c :: cs).drop pat.length)
    else
      match splitAtCI pat cs with
      | none => none
      | some (pre, post) => some (c :: pre, post)

/-- One quote variant of the pattern `encoding=["']application\/x-tex["']`. -/
def encPat (q1 q2 : Char) : List Char :=
  "encoding=".data ++ q1 :: ("application/x-tex".data ++ [q2])

/-- Attempt of `<annotation[^>]*encoding=["']application\/x-tex["'][^>]*>` at
the current position: the tag keyword, then the maximal run of non-`>`
characters, which must contain the encoding marker and be terminated by `>`.
On success, return the text after the `>`. -/
def annotOpenAt (s : List Char) : Option (List Char) :=
  if startsWithCI "<annotation".data s then
    let afterKw := s.drop 11
    let run := afterKw.takeWhile fun c => !(c == '>')
    match afterKw.drop run.length with
    | _ :: rest =>
      if containsCI (encPat dquote dquote) run || containsCI (encPat dquote squote) run ||
          containsCI (encPat squote dquote) run || containsCI (encPat squote squote) run then
        some rest
      else none
    | [] => none
  else none

/-- Attempt of the full TeX-annotation pattern at the current position: open
tag, then the lazy body `([\s\S]*?)` up to the first `</annotation>`. -/
def tryAnnotValueAt (s : List Char) : Option (List Char) :=
  match annotOpenAt s with
  | none => none
  | some rest =>
    match splitAtCI "</annotation>".data rest with
    | none => none
    | some (captured, _) => some captured

/-- First match of the TeX-annotation pattern anywhere in the node text. -/
def findAnnotValue : List Char → Option (List Char)
  | [] => none
  | c :: cs =>
    match tryAnnotValueAt (c :: cs) with
    | some v => some v
    | none => findAnnotValue cs

/-- Fueled global replacement of `<[^>]+>` by the empty string: a tag is
`<`, a nonempty maximal run of non-`>` characters, then `>`; an unmatched `<`
stays.  `stripTags` supplies sufficient fuel. -/
def stripTagsF : Nat → List Char → List Char
  | 0, s => s
  | _ + 1, [] => []
  | fuel + 1, c :: cs =>
    if c == '<' then
      let run := cs.takeWhile fun x => !(x == '>')
      match cs.drop run.length with
      | _ :: rest => if run = [] then c :: stripTagsF fuel cs else stripTagsF fuel rest
      | [] => c :: stripTagsF fuel cs
    else c :: stripTagsF fuel cs

/-- Tag stripping used on captured annotation bodies. -/
def stripTags (s : List Char) : List Char := stripTagsF s.length s

/-- Fueled global replacement of `\s+` by a single space; `collapseWS`
supplies sufficient fuel. -/
def collapseWSF : Nat → List Char → List Char
  | 0, s => s
  | _ + 1, [] => []
  | fuel + 1, c :: cs =>
    if jsWhitespace c then ' ' :: collapseWSF fuel (cs.dropWhile jsWhitespace)
    else c :: collapseWSF fuel cs

/-- Whitespace-run collapsing used on captured annotation bodies. -/
def collapseWS (s : List Char) : List Char := collapseWSF s.length s

/-- Strip leading and trailing whitespace, modelling `trim()`. -/
def trimWS (s : List Char) : List Char :=
  ((s.dropWhile jsWhitespace).reverse.dropWhile jsWhitespace).reverse

/-- Model of `extractAltText` (part_000 lines 81-94): capture the body of a
TeX annotation, strip inner tags, collapse whitespace, trim, and treat an
empty result (or no annotation at all) as absent. -/
def extractAltText (mathNodeXml : List Char) : Option (List Char) :=
  match findAnnotValue mathNodeXml with
  | none => none
  | some captured =>
    let cleaned := trimWS (collapseWS (stripTags captured))
    if cleaned = [] then none else some cleaned

example :
    extractAltText "<math><annotation encoding=\"application/x-tex\"> x^2 </annotation></math>".data
      = some "x^2".data := by decide

example : extractAltText "<math><mi>x</mi></math>".data = none := by decide

/-- Global replacement of one character by a string, modelling
`value.replace(/c/g, rep)` for a single-character pattern. -/
def subChar (t : Char) (rep : List Char) (s : List Char) : List Char :=
  s.flatMap fun c => if c = t then rep else [c]

/-- Model of `escapeAttributeValue` (part_000 lines 96-102): replace `&`,
then `"`, then `<`, then `>` by their entities, in that order. -/
def escapeAttributeValue (value : List Char) : List Char :=
  subChar '>' "&gt;".data
    (subChar '<' "&lt;".data
      (subChar dquote "&quot;".data
        (subChar '&' "&amp;".data value)))

/-- Model of `buildImgTagFromBase64` (part_000 lines 104-107). -/
def buildImgTagFromBase64 (base64Png className : List Char)
    (altText : Option (List Char)) : List Char :=
  let alt := escapeAttributeValue (altText.getD "math".data)
  "<img class=".data ++ dquote :: className ++ dquote :: " src=".data ++
    dquote :: "data:image/png;base64,".data ++ base64Png ++ dquote :: " alt=".data ++
    dquote :: alt ++ dquote :: " />".data

/-- Attempt of the class-attribute pattern `\sclass\s*=\s*"([^"]*)"` at the
current position, returning the captured existing classes and the text after
the matched span. -/
def tryClassAt (s : List Char) : Option (List Char × List Char) :=
  match s with
  | [] => none
  | c :: cs =>
    if jsWhitespace c && startsWithCI "class".data cs then
      match skipWS (cs.drop 5) with
      | '=' :: t2 =>
        match skipWS t2 with
        | q :: t3 =>
          if q == dquote then
            let ex := t3.takeWhile fun x => !(x == dquote)
            match t3.drop ex.length with
            | _ :: rest => some (ex, rest)
            | [] => none
          else none
        | [] => none
      | _ => none
    else none

/-- First match of the class-attribute pattern, split into the text before
the span, the captured classes, and the text after the span. -/
def findClassSplit : List Char → Option (List Char × List Char × List Char)
  | [] => none
  | c :: cs =>
    match tryClassAt (c :: cs) with
    | some exRest => some ([], exRest.1, exRest.2)
    | none =>
      match findClassSplit cs with
      | none => none
      | some per => some (c :: per.1, per.2.1, per.2.2)

/-- Merged class list `` `${existing} ${className}`.trim().replace(/\s+/g, " ") ``. -/
def mergedClass (existing className : List Char) : List Char :=
  collapseWS (trimWS (existing ++ ' ' :: className))

/-- Head of the pattern `^<svg\b` at the start of the string. -/
def svgOpenAt (s : List Char) : Bool :=
  startsWithCI "<svg".data s &&
    (match s.drop 4 with
     | [] => true
     | c :: _ => !wordChar c)

/-- Model of `updated.replace(/^<svg\b/i, ins)`: replace the opening `<svg`
token when the string starts with it, otherwise leave the string alone. -/
def replaceSvgOpen (s ins : List Char) : List Char :=
  if svgOpenAt s then ins ++ s.drop 4 else s

/-- Attempt of `\sxmlns\s*=\s*"http:\/\/www\.w3\.org\/2000\/svg"` at the
current position. -/
def tryXmlnsAt (s : List Char) : Bool :=
  match s with
  | [] => false
  | c :: cs =>
    jsWhitespace c && startsWithCI "xmlns".data cs &&
      (match skipWS (cs.drop 5) with
       | '=' :: t2 => startsWithCI "\"http://www.w3.org/2000/svg\"".data (skipWS t2)
       | _ => false)

/-- Test of the xmlns pattern anywhere in the string. -/
def hasXmlnsSvg : List Char → Bool
  | [] => false
  | c :: cs => tryXmlnsAt (c :: cs) || hasXmlnsSvg cs

/-- Attempt of `\skw\s*=\s*"` at the current position, for a literal
attribute keyword `kw` (used with `role` and `aria-label`). -/
def tryAttrEqQuoteAt (kw : List Char) (s : List Char) : Bool :=
  match s with
  | [] => false
  | c :: cs =>
    jsWhitespace c && startsWithCI kw cs &&
      (match skipWS (cs.drop kw.length) with
       | '=' :: t2 =>
         match skipWS t2 with
         | q :: _ => q == dquote
         | [] => false
       | _ => false)

/-- Test of `\skw\s*=\s*"` anywhere in the string. -/
def hasAttrEqQuote (kw : List Char) : List Char → Bool
  | [] => false
  | c :: cs => tryAttrEqQuoteAt kw (c :: cs) || hasAttrEqQuote kw cs

/-- Class block of `injectSvgAttributes` (part_000 lines 112-119): merge the
semantic class into the first existing class attribute, or prepend a class
attribute onto the opening `<svg` tag. -/
def injectClassStep (svg className : List Char) : List Char :=
  match findClassSplit svg with
  | some per =>
    per.1 ++ " class=".data ++ dquote :: mergedClass per.2.1 className ++ dquote :: per.2.2
  | none => replaceSvgOpen svg ("<svg class=".data ++ dquote :: className ++ [dquote])

/-- Namespace block of `injectSvgAttributes` (part_000 lines 121-123). -/
def injectXmlnsStep (svg : List Char) : List Char :=
  if hasXmlnsSvg svg then svg
  else replaceSvgOpen svg ("<svg xmlns=".data ++ dquote :: "http://www.w3.org/2000/svg".data ++ [dquote])

/-- Role block of `injectSvgAttributes` (part_000 lines 127-129). -/
def injectRoleStep (svg : List Char) : List Char :=
  if hasAttrEqQuote "role".data svg then svg
  else replaceSvgOpen svg ("<svg role=".data ++ dquote :: "img".data ++ [dquote])

/-- Accessible-label block of `injectSvgAttributes` (part_000 lines
130-132), receiving the already-escaped alternative text. -/
def injectAriaStep (svg escapedAlt : List Char) : List Char :=
  if hasAttrEqQuote "aria-label".data svg then svg
  else replaceSvgOpen svg ("<svg aria-label=".data ++ dquote :: escapedAlt ++ [dquote])

/-- Model of `injectSvgAttributes` (part_000 lines 109-136): merge the
semantic class, add the SVG namespace if missing, and, when alternative text
is present (JavaScript truthiness: non-null and nonempty), add `role="img"`
and an `aria-label` carrying the escaped alternative text unless already
present. -/
def injectSvgAttributes (svg className : List Char) (altText : Option (List Char)) : List Char :=
  let u2 := injectXmlnsStep (injectClassStep svg className)
  match altText with
  | none => u2
  | some a =>
    if a = [] then u2
    else injectAriaStep (injectRoleStep u2) (escapeAttributeValue a)

/-- Output format of the converter, from `types.ts`. -/
inductive OutputFormat where
  | png
  | svg
deriving DecidableEq

/-- The two external renderers as the program receives them
(`createMathmlConverters`): each consumes a math-markup string and a display
flag and either returns markup text (vector) or a base64 payload (raster),
or raises, modelled by `Except.error`. -/
structure Converters where
  svg : List Char → Bool → Except Unit (List Char)
  png : List Char → Bool → Except Unit (List Char)

/-- Validation `/^<svg\b/i.test(svgMarkup.trim())` of vector output. -/
def svgShapeOk (svgMarkup : List Char) : Bool := svgOpenAt (trimWS svgMarkup)

/-- Base64 alphabet test: the complement of `[^A-Za-z0-9+/=]`. -/
def b64Char (c : Char) : Bool :=
  c.isAlpha || c.isDigit || c == '+' || c == '/' || c == '='

/-- Validation `!pngBase64 || /[^A-Za-z0-9+/=]/.test(pngBase64)` negated:
the raster payload is nonempty and contains only base64 characters. -/
def base64Ok (b : List Char) : Bool := !b.isEmpty && b.all b64Char

/-- Semantic class attached to converted vector output. -/
def svgClassName (display : Bool) : List Char :=
  "math-svg ".data ++ (if display then "math-svg-block".data else "math-svg-inline".data)

/-- Semantic class attached to converted raster output. -/
def pngClassName (display : Bool) : List Char :=
  "math-png ".data ++ (if display then "math-png-block".data else "math-png-inline".data)

/-- The replacement callback of `convertMathInFileByFormat` (part_000 lines
152-177) for one matched math node: returns the replacement text and whether
the node counted as converted.  A raised renderer failure or malformed
renderer output leaves the node verbatim and uncounted. -/
def processNode (format : OutputFormat) (converters : Converters)
    (mathXml : List Char) : List Char × Bool :=
  let display := displayModeOf mathXml
  let altText := extractAltText mathXml
  match format with
  | .svg =>
    match converters.svg mathXml display with
    | .error _ => (mathXml, false)
    | .ok svgMarkup =>
      if svgShapeOk svgMarkup then
        (injectSvgAttributes svgMarkup (svgClassName display) altText, true)
      else (mathXml, false)
  | .png =>
    match converters.png mathXml display with
    | .error _ => (mathXml, false)
    | .ok pngBase64 =>
      if base64Ok pngBase64 then
        (buildImgTagFromBase64 pngBase64 (pngClassName display) altText, true)
      else (mathXml, false)

/-- Fueled model of `original.replace(mathPattern, cb)` together with the
`convertedCount` accumulation: each complete math match is handed to the
callback, scanning resumes after the match, and everything else is copied
verbatim.  `replaceMath` supplies sufficient fuel. -/
def replaceMathF (format : OutputFormat) (converters : Converters) :
    Nat → List Char → List Char × Nat
  | 0, s => (s, 0)
  | fuel + 1, s =>
    match findOpenSplit s with
    | none => (s, 0)
    | some (pre, suf) =>
      match findCloseSplit (suf.drop 5) with
      | none => (s, 0)
      | some (mid, rest) =>
        let r := processNode format converters (suf.take 5 ++ mid)
        let t := replaceMathF format converters fuel rest
        (pre ++ r.1 ++ t.1, (if r.2 then 1 else 0) + t.2)

/-- Regex replacement pass over a whole document. -/
def replaceMath (format : OutputFormat) (converters : Converters) (s : List Char) :
    List Char × Nat :=
  replaceMathF format converters s.length s

theorem replaceMathF_congr (format : OutputFormat) (converters : Converters) :
    ∀ {f1 f2 : Nat} {s : List Char}, s.length ≤ f1 → s.length ≤ f2 →
      replaceMathF format converters f1 s = replaceMathF format converters f2 s := by
  intro f1
  induction f1 with
  | zero =>
    intro f2 s h1 h2
    have hs : s = [] := List.length_eq_zero.mp (Nat.le_zero.mp h1)
    subst hs
    cases f2 with
    | zero => rfl
    | succ f => simp [replaceMathF, findOpenSplit]
  | succ f ih =>
    intro f2 s h1 h2
    cases f2 with
    | zero =>
      have hs : s = [] := List.length_eq_zero.mp (Nat.le_zero.mp h2)
      subst hs
      simp [replaceMathF, findOpenSplit]
    | succ g =>
      rw [replaceMathF, replaceMathF]
      cases ho : findOpenSplit s with
      | none => rfl
      | some pr =>
        obtain ⟨pre, suf⟩ := pr
        simp only
        cases hc : findCloseSplit (suf.drop 5) with
        | none => rfl
        | some mr =>
          obtain ⟨mid, rest⟩ := mr
          simp only
          have hlt : rest.length < s.length := scanStep_decreasing ho hc
          rw [@ih g rest (by omega) (by omega)]

theorem replaceMath_eq (format : OutputFormat) (converters : Converters) (s : List Char) :
    replaceMath format converters s =
      match findOpenSplit s with
      | none => (s, 0)
      | some (pre, suf) =>
        match findCloseSplit (suf.drop 5) with
        | none => (s, 0)
        | some (mid, rest) =>
          let r := processNode format converters (suf.take 5 ++ mid)
          let t := replaceMath format converters rest
          (pre ++ r.1 ++ t.1, (if r.2 then 1 else 0) + t.2) := by
  unfold replaceMath
  cases hs : s with
  | nil => simp [replaceMathF, findOpenSplit]
  | cons c cs =>
    rw [show (c :: cs).length = cs.length + 1 by simp, replaceMathF]
    cases ho : findOpenSplit (c :: cs) with
    | none => rfl
    | some pr =>
      obtain ⟨pre, suf⟩ := pr
      simp only
      cases hc : findCloseSplit (suf.drop 5) with
      | none => rfl
      | some mr =>
        obtain ⟨mid, rest⟩ := mr
        simp only
        have hlt : rest.length < (c :: cs).length := scanStep_decreasing ho hc
        simp only [List.length_cons] at hlt
        rw [@replaceMathF_congr format converters cs.length rest.length rest
          (Nat.le_of_lt_succ hlt) (le_refl rest.length)]

/-- Model of `convertMathInFileByFormat` (part_000 lines 138-186): the result
is the document content on disk after the call, whether the file was
rewritten, and the conversion count.  Without a math match, or when no node
converted, nothing is written and the content stays `original`. -/
def convertMathInFileByFormat (format : OutputFormat) (converters : Converters)
    (original : List Char) : List Char × Bool × Nat :=
  if hasMathNode original = false then (original, false, 0)
  else
    let r := replaceMath format converters original
    if r.2 = 0 then (original, false, 0)
    else (r.1, true, r.2)

/-- Case-sensitive substring test, modelling `String.prototype.includes`. -/
def containsSub (pat : List Char) : List Char → Bool
  | [] => pat.isEmpty
  | c :: cs => pat.isPrefixOf (c :: cs) || containsSub pat cs

/-- Split at the first occurrence of `pat`, modelling the single-replacement
`content.replace(pat, rep)` for a plain string pattern: the text before the
occurrence and the text after it. -/
def splitFirst (pat : List Char) : List Char → Option (List Char × List Char)
  | [] => if pat.isEmpty then some ([], []) else none
  | c :: cs =>
    if pat.isPrefixOf (c :: cs) then some ([], (c :: cs).drop pat.length)
    else
      match splitFirst pat cs with
      | none => none
      | some pr => some (c :: pr.1, pr.2)

/-- Style block injected for each format (part_000 lines 203-206); literal
CSS braces are written as `\x7b`/`\x7d`. -/
def styleTagFor (format : OutputFormat) : List Char :=
  match format with
  | .svg => "<style type=\"text/css\">.math-svg-inline\x7bvertical-align:middle;display:inline-block;max-width:100%;\x7d.math-svg-block\x7bdisplay:block;margin:0.8em auto;max-width:100%;\x7d</style>".data
  | .png => "<style type=\"text/css\">.math-png-inline\x7bvertical-align:middle;display:inline-block;max-width:100%;\x7d.math-png-block\x7bdisplay:block;margin:0.8em auto;max-width:100%;\x7d</style>".data

/-- Inline class name checked by the style-injection guard. -/
def inlineClassFor (format : OutputFormat) : List Char :=
  match format with
  | .svg => "math-svg-inline".data
  | .png => "math-png-inline".data

/-- Block class name checked by the style-injection guard. -/
def blockClassFor (format : OutputFormat) : List Char :=
  match format with
  | .svg => "math-svg-block".data
  | .png => "math-png-block".data

/-- Model of `appendStylesIfMissingByFormat` (part_000 lines 188-209): the
result is the document content on disk after the call.  When both class
names already occur, or no closing head tag is present, nothing is written;
otherwise the style block is inserted before the first `</head>`. -/
def appendStylesIfMissingByFormat (format : OutputFormat) (content : List Char) : List Char :=
  if containsSub (inlineClassFor format) content && containsSub (blockClassFor format) content then
    content
  else
    match splitFirst "</head>".data content with
    | none => content
    | some pr => pr.1 ++ styleTagFor format ++ "</head>".data ++ pr.2

/-! ## Pipeline driver model (index.ts lines 418-453)

The filesystem visible to the driver is modelled as the list of existing
paths; the three phases inside the `try` block are arbitrary fallible state
transformers, and the `finally` clause removes the scratch root recursively
(`rm(tempRoot, recursive: true, force: true)`). -/

/-- Is `p` the scratch root itself or a path beneath it? -/
def underTemp (tempRoot p : List Char) : Bool :=
  p == tempRoot || (tempRoot ++ ['/']).isPrefixOf p

/-- Recursive forced removal of the scratch root. -/
def rmTreeRec (tempRoot : List Char) (fs : List (List Char)) : List (List Char) :=
  fs.filter fun p => !underTemp tempRoot p

/-- The `try`-block body of `main`: extraction, then the per-document
transform loop, then repacking, each able to fail, sequenced strictly. -/
def pipelineBody (extractPhase transformPhase repackPhase :
    List (List Char) → Except Unit Unit × List (List Char))
    (fs : List (List Char)) : Except Unit Unit × List (List Char) :=
  match extractPhase fs with
  | (.error e, fs1) => (.error e, fs1)
  | (.ok _, fs1) =>
    match transformPhase fs1 with
    | (.error e, fs2) => (.error e, fs2)
    | (.ok _, fs2) => repackPhase fs2

/-- Model of `main`'s `try`/`finally` (index.ts lines 424-453): run the body
and, whatever its outcome, remove the scratch tree on the way out. -/
def mainPipeline (extractPhase transformPhase repackPhase :
    List (List Char) → Except Unit Unit × List (List Char))
    (tempRoot : List Char) (fs : List (List Char)) :
    Except Unit Unit × List (List Char) :=
  let r := pipelineBody extractPhase transformPhase repackPhase fs
  (r.1, rmTreeRec tempRoot r.2)

/-! ## Concurrency scheduler model -/

/-- Modelled from the spec: the Concurrency Scheduler of section 4.4 is not
among the provided source files - only its option plumbing appears
(`--concurrency` parsing in `cli.ts`, the `concurrency` field of
`CliOptions` in `types.ts`); the provided `index.ts` predates it and runs
the per-document loop sequentially.  Following the spec's words, a worker
pool shares a single next-unclaimed-index counter and writes each result
into a pre-sized slot array keyed by original index.  The state records the
shared counter, the result slots, and what each worker currently holds. -/
structure SchedState (α β : Type) where
  nextIndex : Nat
  slots : List (Option β)
  busy : List (Option (Nat × α))
deriving DecidableEq

/-- Modelled from the spec: initial scheduler state - counter at zero, one
empty result slot per document, every worker idle. -/
def schedInit (docs : List α) (workers : Nat) : SchedState α β :=
  ⟨0, List.replicate docs.length none, List.replicate workers none⟩

/-- Modelled from the spec: one atomic event of worker `w`.  An idle worker
claims the next unclaimed index (if any); a busy worker completes its
document, writing the operation's result into the slot of the index it
claimed.  Events of an unknown worker id change nothing.  The interleaving
of events across workers is the schedule, which is arbitrary. -/
def schedStep (docs : List α) (op : α → β) (st : SchedState α β) (w : Nat) : SchedState α β :=
  match st.busy[w]? with
  | none => st
  | some none =>
    match docs[st.nextIndex]? with
    | none => st
    | some d =>
      { st with
        nextIndex := st.nextIndex + 1
        busy := st.busy.set w (some (st.nextIndex, d)) }
  | some (some id) =>
    { st with
      slots := st.slots.set id.1 (some (op id.2))
      busy := st.busy.set w none }

/-- Modelled from the spec: a complete scheduler run is a fold of events
over an arbitrary schedule from the initial state. -/
def schedRun (docs : List α) (op : α → β) (workers : Nat) (schedule : List Nat) :
    SchedState α β :=
  schedule.foldl (schedStep docs op) (schedInit docs workers)

/-- Modelled from the spec: a run has finished when the shared counter has
exhausted the document list and every worker is idle again. -/
def finishedSched (docs : List α) (st : SchedState α β) : Prop :=
  st.nextIndex = docs.length ∧ ∀ b ∈ st.busy, b = none

/-- Per-document result type of the transform operation as the scheduler
aggregates it: whether the document changed and its conversion count. -/
def totalConverted (slots : List (Option (Bool × Nat))) : Nat :=
  (slots.map fun r => ((r.getD (false, 0)).2)).sum

/-- Number of changed documents among the collected results. -/
def filesChangedCount (slots : List (Option (Bool × Nat))) : Nat :=
  slots.countP fun r => ((r.getD (false, 0)).1)

/-- Invariant of the scheduler: the slot array keeps one slot per document,
the shared counter never passes the end, a busy worker holds a claimed index
below the counter together with that document, and every claimed index is
either already completed in its slot or still held by some worker. -/
def SchedInv (docs : List α) (op : α → β) (st : SchedState α β) : Prop :=
  st.slots.length = docs.length ∧
  st.nextIndex ≤ docs.length ∧
  (∀ (w i : Nat) (d : α), st.busy[w]? = some (some (i, d)) → i < st.nextIndex ∧ docs[i]? = some d) ∧
  (∀ i, i < st.nextIndex →
    st.slots[i]? = (docs[i]?).map (fun d => some (op d)) ∨
      ∃ (w : Nat) (d : α), st.busy[w]? = some (some (i, d)))

theorem schedInit_inv (docs : List α) (op : α → β) (workers : Nat) :
    SchedInv docs op (schedInit docs workers : SchedState α β) := by
  refine ⟨by simp [schedInit], by simp [schedInit], ?_, ?_⟩
  · intro w i d h
    simp only [schedInit, List.getElem?_replicate] at h
    split at h
    · simp at h
    · simp at h
  · intro i hi
    simp [schedInit] at hi

theorem schedStep_inv (docs : List α) (op : α → β) (st : SchedState α β) (w : Nat)
    (h : SchedInv docs op st) : SchedInv docs op (schedStep docs op st w) := by
  obtain ⟨hlen, hnext, hbusy, hslot⟩ := h
  cases hb : st.busy[w]? with
  | none =>
    have hred : schedStep docs op st w = st := by unfold schedStep; rw [hb]
    rw [hred]
    exact ⟨hlen, hnext, hbusy, hslot⟩
  | some ow =>
    cases ow with
    | none =>
      cases hd : docs[st.nextIndex]? with
      | none =>
        have hred : schedStep docs op st w = st := by unfold schedStep; rw [hb, hd]
        rw [hred]
        exact ⟨hlen, hnext, hbusy, hslot⟩
      | some d =>
        have hred : schedStep docs op st w =
            { st with
              nextIndex := st.nextIndex + 1
              busy := st.busy.set w (some (st.nextIndex, d)) } := by
          unfold schedStep; rw [hb, hd]
        rw [hred]
        unfold SchedInv
        dsimp only
        have hwlt : w < st.busy.length := (List.getElem?_eq_some.mp hb).1
        have hnlt : st.nextIndex < docs.length := (List.getElem?_eq_some.mp hd).1
        refine ⟨hlen, by omega, ?_, ?_⟩
        · intro w2 i2 d2 h2
          simp only [List.getElem?_set] at h2
          by_cases hw : w = w2
          · subst hw
            rw [if_pos rfl, if_pos hwlt] at h2
            simp only [Option.some.injEq, Prod.mk.injEq] at h2
            obtain ⟨h3, h4⟩ := h2
            subst h3; subst h4
            exact ⟨by omega, hd⟩
          · rw [if_neg hw] at h2
            obtain ⟨h5, h6⟩ := hbusy w2 i2 d2 h2
            exact ⟨by omega, h6⟩
        · intro i hi
          by_cases hieq : i = st.nextIndex
          · subst hieq
            right
            exact ⟨w, d, by simp [List.getElem?_set, hwlt]⟩
          · have hi2 : i < st.nextIndex := by omega
            cases hslot i hi2 with
            | inl h5 => exact Or.inl h5
            | inr h5 =>
              obtain ⟨w2, d2, h6⟩ := h5
              right
              refine ⟨w2, d2, ?_⟩
              simp only [List.getElem?_set]
              by_cases hw : w = w2
              · subst hw
                rw [hb] at h6
                simp at h6
              · rw [if_neg hw]
                exact h6
    | some id =>
      obtain ⟨i, d⟩ := id
      have hred : schedStep docs op st w =
          { st with
            slots := st.slots.set i (some (op d))
            busy := st.busy.set w none } := by
        unfold schedStep; rw [hb]
      rw [hred]
      unfold SchedInv
      dsimp only
      have hwlt : w < st.busy.length := (List.getElem?_eq_some.mp hb).1
      obtain ⟨hilt, hid⟩ := hbusy w i d hb
      have hislt : i < st.slots.length := by omega
      refine ⟨by simp [hlen], hnext, ?_, ?_⟩
      · intro w2 i2 d2 h2
        simp only [List.getElem?_set] at h2
        by_cases hw : w = w2
        · subst hw
          rw [if_pos rfl, if_pos hwlt] at h2
          simp at h2
        · rw [if_neg hw] at h2
          exact hbusy w2 i2 d2 h2
      · intro j hj
        by_cases hji : j = i
        · subst hji
          left
          simp [List.getElem?_set, hislt, hid]
        · cases hslot j hj with
          | inl h5 =>
            left
            have hij : ¬ i = j := fun hh => hji hh.symm
            simp only [List.getElem?_set, if_neg hij]
            exact h5
          | inr h5 =>
            obtain ⟨w2, d2, h6⟩ := h5
            by_cases hw : w = w2
            · subst hw
              rw [hb] at h6
              simp only [Option.some.injEq, Prod.mk.injEq] at h6
              exact absurd h6.1.symm hji
            · right
              refine ⟨w2, d2, ?_⟩
              simp only [List.getElem?_set, if_neg hw]
              exact h6

theorem schedFold_inv (docs : List α) (op : α → β) (schedule : List Nat) :
    ∀ st : SchedState α β, SchedInv docs op st →
      SchedInv docs op (schedule.foldl (schedStep docs op) st) := by
  induction schedule with
  | nil => intro st h; exact h
  | cons w ws ih => intro st h; exact ih _ (schedStep_inv docs op st w h)

theorem schedRun_inv (docs : List α) (op : α → β) (workers : Nat) (schedule : List Nat) :
    SchedInv docs op (schedRun docs op workers schedule) :=
  schedFold_inv docs op schedule _ (schedInit_inv docs op workers)

theorem schedRun_slots (docs : List α) (op : α → β) (workers : Nat) (schedule : List Nat)
    (h : finishedSched docs (schedRun docs op workers schedule)) :
    (schedRun docs op workers schedule).slots = docs.map fun d => some (op d) := by
  obtain ⟨hn, hb⟩ := h
  obtain ⟨hlen, hnext, hbusy, hslot⟩ := schedRun_inv docs op workers schedule
  apply List.ext_getElem?
  intro i
  rw [List.getElem?_map]
  by_cases hi : i < docs.length
  · have h4 := hslot i (by omega)
    cases h4 with
    | inl h5 => exact h5
    | inr h5 =>
      obtain ⟨w, d, h6⟩ := h5
      have h7 := hb _ (List.getElem?_mem h6)
      simp at h7
  · have h1 : docs[i]? = none := List.getElem?_eq_none (by omega)
    have h2 : (schedRun docs op workers schedule).slots[i]? = none :=
      List.getElem?_eq_none (by omega)
    rw [h1, h2]
    rfl

/-! ## Claim theorems -/

/-- Scratch tree with mixed-case file names for the C1 counterexample. -/
def c1ctree : List (List Char × List Char) :=
  [("B.txt".data, "1".data), ("mimetype".data, "application/epub+zip".data),
   ("a.txt".data, "2".data)]

/-- C1 counterexample: under the locale collation that `localeCompare`
performs - represented by `localeLikeLe`, which orders `a.txt` before
`B.txt` exactly as ICU-backed runtimes do - `repackEpub` emits `a.txt`
before `B.txt`, an order that is not lexicographic: the claim's
"lexicographically sorted archive-relative-path order" fails on mixed-case
path sets. -/
theorem c1_counterexample :
    repackEpub localeLikeLe c1ctree
      = .ok [⟨"mimetype".data, "application/epub+zip".data, false⟩,
             ⟨"a.txt".data, "2".data, true⟩, ⟨"B.txt".data, "1".data, true⟩] ∧
    ¬ ("a.txt".data : List Char) ≤ "B.txt".data ∧
    ¬ List.Sorted (fun a b : ZipEntry => a.name ≤ b.name)
        [⟨"a.txt".data, "2".data, true⟩, ⟨"B.txt".data, "1".data, true⟩] := by
  refine ⟨by rfl, by decide, ?_⟩
  intro hs
  rw [List.sorted_cons] at hs
  exact absurd (hs.1 _ (List.mem_cons_self _ _)) (by decide)

/-- C1 amended: for every scratch tree containing a root-level file named
`mimetype` and every decidable, total, transitive comparator - the runtime's
locale collation being one such - `repackEpub` produces a container whose
first entry is `mimetype` stored without compression, followed by every
other file beneath the scratch root, each compressed, sorted by that
comparator on archive-relative paths. -/
theorem c1_repack_layout_amended (r : List Char → List Char → Prop)
    [DecidableRel r] [IsTotal (List Char) r] [IsTrans (List Char) r]
    (tree : List (List Char × List Char)) (d : List Char)
    (h : lookupPath "mimetype".data tree = some d) :
    ∃ rest : List ZipEntry,
      repackEpub r tree = .ok (⟨"mimetype".data, d, false⟩ :: rest) ∧
      List.Sorted (fun a b : ZipEntry => r a.name b.name) rest ∧
      (∀ e ∈ rest, e.compress = true) ∧
      (rest.map fun e => (e.name, e.data)).Perm
        (tree.filter fun pc => decide (pc.1 ≠ "mimetype".data)) := by
  refine ⟨(List.insertionSort (entryLe r)
      (tree.filter fun pc => decide (pc.1 ≠ "mimetype".data))).map
        (fun pc => ⟨pc.1, pc.2, true⟩), ?_, ?_, ?_, ?_⟩
  · unfold repackEpub
    rw [h]
  · have hs := List.sorted_insertionSort (entryLe r)
      (tree.filter fun pc => decide (pc.1 ≠ "mimetype".data))
    unfold List.Sorted at hs ⊢
    rw [List.pairwise_map]
    exact hs
  · intro e he
    simp only [List.mem_map] at he
    obtain ⟨pc, _, he2⟩ := he
    rw [← he2]
  · rw [List.map_map]
    have hid : List.map ((fun e : ZipEntry => (e.name, e.data)) ∘
        (fun pc : List Char × List Char => ZipEntry.mk pc.1 pc.2 true))
        (List.insertionSort (entryLe r)
          (tree.filter fun pc => decide (pc.1 ≠ "mimetype".data)))
        = List.insertionSort (entryLe r)
          (tree.filter fun pc => decide (pc.1 ≠ "mimetype".data)) :=
      List.map_id'' (fun x => rfl) _
    rw [hid]
    exact List.perm_insertionSort (entryLe r) _

/-- Concrete scratch tree for the C1 witness. -/
def c1tree : List (List Char × List Char) :=
  [("b.txt".data, "B".data), ("mimetype".data, "application/epub+zip".data),
   ("OEBPS/a.xhtml".data, "A".data)]

/-- Witness for C1 at a concrete scratch tree and the concrete code-point
comparator. -/
theorem c1_witness :
    ∃ rest : List ZipEntry,
      repackEpub codePointLe c1tree
        = .ok (⟨"mimetype".data, "application/epub+zip".data, false⟩ :: rest) ∧
      List.Sorted (fun a b : ZipEntry => codePointLe a.name b.name) rest ∧
      (∀ e ∈ rest, e.compress = true) ∧
      (rest.map fun e => (e.name, e.data)).Perm
        (c1tree.filter fun pc => decide (pc.1 ≠ "mimetype".data)) :=
  c1_repack_layout_amended codePointLe c1tree "application/epub+zip".data (by rfl)

/-- C3: for every document whose text contains no math node, the transformer
performs no write - the resulting file content is byte-for-byte the
original - and reports `changed = false` with a conversion count of zero. -/
theorem c3_no_math_no_write (format : OutputFormat) (converters : Converters)
    (original : List Char)
    (h : (mathScan original).all Sum.isLeft = true) :
    convertMathInFileByFormat format converters original = (original, false, 0) := by
  have hfalse : hasMathNode original = false := by
    cases ho : findOpenSplit original with
    | none => unfold hasMathNode; rw [ho]
    | some pr =>
      obtain ⟨pre, suf⟩ := pr
      cases hc : findCloseSplit (suf.drop 5) with
      | none => unfold hasMathNode; rw [ho]; simp [hc]
      | some mr =>
        obtain ⟨mid, rest⟩ := mr
        exfalso
        have hmem : (Sum.inr (suf.take 5 ++ mid) : List Char ⊕ List Char) ∈ mathScan original := by
          rw [mathScan_eq original, ho]
          show (Sum.inr (suf.take 5 ++ mid) : List Char ⊕ List Char) ∈
            (match findCloseSplit (suf.drop 5) with
             | none => [Sum.inl original]
             | some (mid, rest) =>
               Sum.inl pre :: Sum.inr (suf.take 5 ++ mid) :: mathScan rest)
          rw [hc]
          simp
        have h2 := List.all_eq_true.mp h _ hmem
        simp at h2
  unfold convertMathInFileByFormat
  rw [hfalse]
  simp

/-- Concrete always-succeeding renderers for witnesses. -/
def cvOkWitness : Converters :=
  ⟨fun _ _ => .ok "<svg height=\"1\"></svg>".data, fun _ _ => .ok "QUJD".data⟩

/-- Witness for C3 at a concrete math-free document. -/
theorem c3_witness :
    convertMathInFileByFormat .png cvOkWitness "<p>hello math world</p>".data
      = ("<p>hello math world</p>".data, false, 0) :=
  c3_no_math_no_write .png cvOkWitness "<p>hello math world</p>".data (by rfl)

/-- C6: whatever the three phases do - all succeeding or any of them
failing - every path that survives the pipeline's `finally` clause lies
outside the scratch root: the scratch area is deleted recursively when the
pipeline ends. -/
theorem c6_scratch_always_removed
    (extractPhase transformPhase repackPhase :
      List (List Char) → Except Unit Unit × List (List Char))
    (tempRoot : List Char) (fs : List (List Char)) (p : List Char)
    (hp : p ∈ (mainPipeline extractPhase transformPhase repackPhase tempRoot fs).2) :
    underTemp tempRoot p = false := by
  unfold mainPipeline at hp
  simp only at hp
  unfold rmTreeRec at hp
  have h2 := List.of_mem_filter hp
  simpa using h2

/-- Failing extraction phase for the C6 witness. -/
def c6FailPhase : List (List Char) → Except Unit Unit × List (List Char) :=
  fun fs => (.error (), "/tmp/scratch/book/ch1.xhtml".data :: fs)

/-- Identity success phase for the C6 witness. -/
def c6OkPhase : List (List Char) → Except Unit Unit × List (List Char) :=
  fun fs => (.ok (), fs)

/-- Witness for C6: a failing extraction phase that even created files under
the scratch root still ends with the scratch tree gone. -/
theorem c6_witness : underTemp "/tmp/scratch".data "/books/in.epub".data = false :=
  c6_scratch_always_removed c6FailPhase c6OkPhase c6OkPhase "/tmp/scratch".data
    ["/books/in.epub".data] "/books/in.epub".data (by decide)

/-- C5: any two finished scheduler runs over the same document list - with
any worker limits and any event interleavings - fill the result slots with
the per-document operation results in input order, so per-document results
and both aggregate totals coincide across worker counts and completion
orders.  The scheduler itself is modelled from the spec (section 4.4). -/
theorem c5_scheduler_deterministic {α : Type} (docs : List α) (op : α → Bool × Nat)
    (w1 w2 : Nat) (s1 s2 : List Nat)
    (h1 : finishedSched docs (schedRun docs op w1 s1))
    (h2 : finishedSched docs (schedRun docs op w2 s2)) :
    (schedRun docs op w1 s1).slots = docs.map (fun d => some (op d)) ∧
    (schedRun docs op w1 s1).slots = (schedRun docs op w2 s2).slots ∧
    totalConverted (schedRun docs op w1 s1).slots
      = totalConverted (schedRun docs op w2 s2).slots ∧
    filesChangedCount (schedRun docs op w1 s1).slots
      = filesChangedCount (schedRun docs op w2 s2).slots := by
  have e1 := schedRun_slots docs op w1 s1 h1
  have e2 := schedRun_slots docs op w2 s2 h2
  refine ⟨e1, ?_, ?_, ?_⟩ <;> rw [e1, e2]

/-- Witness for C5: one worker processing sequentially and two workers
finishing out of order produce the same slots and totals. -/
theorem c5_witness :
    (schedRun [10, 20] (fun n => (true, n)) 1 [0, 0, 0, 0]).slots
      = [10, 20].map (fun d => some ((true, d) : Bool × Nat)) ∧
    (schedRun [10, 20] (fun n => (true, n)) 1 [0, 0, 0, 0]).slots
      = (schedRun [10, 20] (fun n => (true, n)) 2 [0, 1, 1, 0]).slots ∧
    totalConverted (schedRun [10, 20] (fun n => (true, n)) 1 [0, 0, 0, 0]).slots
      = totalConverted (schedRun [10, 20] (fun n => (true, n)) 2 [0, 1, 1, 0]).slots ∧
    filesChangedCount (schedRun [10, 20] (fun n => (true, n)) 1 [0, 0, 0, 0]).slots
      = filesChangedCount (schedRun [10, 20] (fun n => (true, n)) 2 [0, 1, 1, 0]).slots :=
  c5_scheduler_deterministic [10, 20] (fun n => (true, n)) 1 2 [0, 0, 0, 0] [0, 1, 1, 0]
    (by constructor <;> decide) (by constructor <;> decide)

/-- Concrete math node whose display attribute value is `BLOCK`. -/
def c9Node : List Char := "<math display=\"BLOCK\"><mi>x</mi></math>".data

/-- C9 counterexample: the claim says any display value other than `block`
resolves to inline mode, but the code lowercases the value first, so the
value `BLOCK` - which differs from `block` - resolves to block mode. -/
theorem c9_counterexample :
    findDisplayValue c9Node = some "BLOCK".data ∧
    "BLOCK".data ≠ "block".data ∧
    displayModeOf c9Node = true := by
  refine ⟨by rfl, by decide, by decide⟩

theorem char_eq_of_toNat_eq {a b : Char} (h : a.toNat = b.toNat) : a = b :=
  Char.ext (UInt32.ext h)

theorem toNat_ofNat_lower {n : Nat} (h1 : 97 ≤ n) (h2 : n ≤ 122) :
    (Char.ofNat n).toNat = n := by
  unfold Char.ofNat
  split
  · rfl
  · next hv => exact absurd (by constructor; omega) hv

theorem jsLowerChar_eq_iff {c lo : Char} (h1 : 97 ≤ lo.toNat) (h2 : lo.toNat ≤ 122) :
    jsLowerChar c = lo ↔
      (c.toNat + 32 = lo.toNat ∨ c = lo ∨ (lo = 'k' ∧ c.toNat = 0x212A)) := by
  unfold jsLowerChar
  split_ifs with hu hk
  · constructor
    · intro h
      left
      have h3 := congrArg Char.toNat h
      rwa [toNat_ofNat_lower (by omega) (by omega)] at h3
    · intro h
      rcases h with h | h | h
      · apply char_eq_of_toNat_eq
        rw [toNat_ofNat_lower (by omega) (by omega)]
        exact h
      · subst h
        omega
      · omega
  · constructor
    · intro h
      right; right
      exact ⟨h.symm, hk⟩
    · intro h
      rcases h with h | h | h
      · omega
      · subst h
        omega
      · exact h.1.symm
  · constructor
    · intro h
      right; left
      exact h
    · intro h
      rcases h with h | h | h
      · omega
      · exact h
      · exact absurd h.2 hk

theorem jsLowerChar_eq_b {c : Char} : jsLowerChar c = 'b' ↔ (c = 'B' ∨ c = 'b') := by
  rw [jsLowerChar_eq_iff (by decide) (by decide)]
  constructor
  · rintro (h | h | h)
    · left
      apply char_eq_of_toNat_eq
      have hb : Char.toNat 'b' = 98 := by decide
      have hB : Char.toNat 'B' = 66 := by decide
      omega
    · exact Or.inr h
    · exact absurd h.1 (by decide)
  · rintro (h | h)
    · subst h; left; decide
    · subst h; right; left; rfl

theorem jsLowerChar_eq_l {c : Char} : jsLowerChar c = 'l' ↔ (c = 'L' ∨ c = 'l') := by
  rw [jsLowerChar_eq_iff (by decide) (by decide)]
  constructor
  · rintro (h | h | h)
    · left
      apply char_eq_of_toNat_eq
      have hb : Char.toNat 'l' = 108 := by decide
      have hB : Char.toNat 'L' = 76 := by decide
      omega
    · exact Or.inr h
    · exact absurd h.1 (by decide)
  · rintro (h | h)
    · subst h; left; decide
    · subst h; right; left; rfl

theorem jsLowerChar_eq_o {c : Char} : jsLowerChar c = 'o' ↔ (c = 'O' ∨ c = 'o') := by
  rw [jsLowerChar_eq_iff (by decide) (by decide)]
  constructor
  · rintro (h | h | h)
    · left
      apply char_eq_of_toNat_eq
      have hb : Char.toNat 'o' = 111 := by decide
      have hB : Char.toNat 'O' = 79 := by decide
      omega
    · exact Or.inr h
    · exact absurd h.1 (by decide)
  · rintro (h | h)
    · subst h; left; decide
    · subst h; right; left; rfl

theorem jsLowerChar_eq_c {c : Char} : jsLowerChar c = 'c' ↔ (c = 'C' ∨ c = 'c') := by
  rw [jsLowerChar_eq_iff (by decide) (by decide)]
  constructor
  · rintro (h | h | h)
    · left
      apply char_eq_of_toNat_eq
      have hb : Char.toNat 'c' = 99 := by decide
      have hB : Char.toNat 'C' = 67 := by decide
      omega
    · exact Or.inr h
    · exact absurd h.1 (by decide)
  · rintro (h | h)
    · subst h; left; decide
    · subst h; right; left; rfl

theorem jsLowerChar_eq_k {c : Char} :
    jsLowerChar c = 'k' ↔ (c = 'K' ∨ c = 'k' ∨ c = Char.ofNat 0x212A) := by
  rw [jsLowerChar_eq_iff (by decide) (by decide)]
  constructor
  · rintro (h | h | h)
    · left
      apply char_eq_of_toNat_eq
      have hb : Char.toNat 'k' = 107 := by decide
      have hB : Char.toNat 'K' = 75 := by decide
      omega
    · exact Or.inr (Or.inl h)
    · right; right
      apply char_eq_of_toNat_eq
      rw [h.2]
      decide
  · rintro (h | h | h)
    · subst h; left; decide
    · subst h; right; left; rfl
    · subst h; right; right; exact ⟨rfl, by decide⟩

theorem jsToLower_eq_block_iff (v : List Char) :
    jsToLower v = "block".data ↔ jsLowersToBlock v := by
  constructor
  · intro h
    unfold jsToLower at h
    cases v with
    | nil => simp at h
    | cons c0 v0 =>
      cases v0 with
      | nil => simp at h
      | cons c1 v1 =>
        cases v1 with
        | nil => simp at h
        | cons c2 v2 =>
          cases v2 with
          | nil => simp at h
          | cons c3 v3 =>
            cases v3 with
            | nil => simp at h
            | cons c4 v4 =>
              cases v4 with
              | cons c5 v5 => simp at h
              | nil =>
                simp only [List.map_cons, List.map_nil,
                  show "block".data = ['b', 'l', 'o', 'c', 'k'] from rfl,
                  List.cons.injEq, and_true] at h
                obtain ⟨h0, h1, h2, h3, h4⟩ := h
                exact ⟨c0, c1, c2, c3, c4, rfl, jsLowerChar_eq_b.mp h0,
                  jsLowerChar_eq_l.mp h1, jsLowerChar_eq_o.mp h2,
                  jsLowerChar_eq_c.mp h3, jsLowerChar_eq_k.mp h4⟩
  · rintro ⟨c0, c1, c2, c3, c4, rfl, h0, h1, h2, h3, h4⟩
    unfold jsToLower
    simp only [List.map_cons, List.map_nil]
    rw [jsLowerChar_eq_b.mpr h0, jsLowerChar_eq_l.mpr h1, jsLowerChar_eq_o.mpr h2,
      jsLowerChar_eq_c.mpr h3, jsLowerChar_eq_k.mpr h4]

/-- C9 amended: display mode is block exactly when the display attribute is
present with a value whose Unicode lowercase is `block`: five characters
that are respectively `B` or `b`, `L` or `l`, `O` or `o`, `C` or `c`, and
`K`, `k` or U+212A KELVIN SIGN (the one code point outside ASCII whose
lowercase is a letter of `block`); any other value, or an absent display
attribute, resolves to inline. -/
theorem c9_display_mode_amended (mathXml : List Char) :
    displayModeOf mathXml = true ↔
      ∃ v, findDisplayValue mathXml = some v ∧ jsLowersToBlock v := by
  unfold displayModeOf
  cases hv : findDisplayValue mathXml with
  | none =>
    simp only [Option.getD_none]
    constructor
    · intro h
      exact absurd h (by decide)
    · rintro ⟨v, hv2, _⟩
      simp [hv] at hv2
  | some v =>
    simp only [Option.getD_some]
    constructor
    · intro h
      exact ⟨v, rfl, (jsToLower_eq_block_iff v).mp (by simpa using h)⟩
    · rintro ⟨v2, hv2, h3⟩
      simp only [Option.some.injEq] at hv2
      subst hv2
      have h4 := (jsToLower_eq_block_iff v).mpr h3
      simpa using h4

/-- Canonical extraction-root path as the resolver computes it. -/
def canonicalRoot (root : List Char) : List Char := segsToPath (resolveAbs root)

/-- Resolved destination of an archive entry name, after backslash
normalization, as the resolver computes it. -/
def resolvedEntryDest (root entryName : List Char) : List Char :=
  segsToPath (resolveFromRoot (resolveAbs root) (normSlashes entryName))

/-- Sandbox predicate of the claim: the path is the root itself or strictly
beneath it (it extends the root across a separator). -/
def withinRoot (root p : List Char) : Prop :=
  p = canonicalRoot root ∨ (canonicalRoot root ++ ['/']).isPrefixOf p = true

theorem resolveArchiveEntryPath_error_iff (root entryName : List Char) :
    resolveArchiveEntryPath root entryName = .error () ↔
      ¬ withinRoot root (resolvedEntryDest root entryName) := by
  unfold resolveArchiveEntryPath withinRoot canonicalRoot resolvedEntryDest
  by_cases h : segsToPath (resolveFromRoot (resolveAbs root) (normSlashes entryName))
        ≠ segsToPath (resolveAbs root) ∧
      (segsToPath (resolveAbs root) ++ ['/']).isPrefixOf
        (segsToPath (resolveFromRoot (resolveAbs root) (normSlashes entryName))) = false
  · rw [if_pos h]
    simp only [true_iff]
    intro hc
    cases hc with
    | inl h2 => exact h.1 h2
    | inr h2 => rw [h.2] at h2; exact Bool.false_ne_true h2
  · rw [if_neg h]
    constructor
    · intro h2
      exact absurd h2 (by simp)
    · intro h2
      exfalso
      apply h2
      rcases not_and_or.mp h with h3 | h3
      · exact Or.inl (not_not.mp h3)
      · right
        cases hb : (segsToPath (resolveAbs root) ++ ['/']).isPrefixOf
            (segsToPath (resolveFromRoot (resolveAbs root) (normSlashes entryName))) with
        | false => exact absurd hb h3
        | true => rfl

theorem resolveArchiveEntryPath_ok (root entryName dest : List Char)
    (h : resolveArchiveEntryPath root entryName = .ok dest) :
    dest = resolvedEntryDest root entryName ∧ withinRoot root dest := by
  simp only [resolveArchiveEntryPath] at h
  split at h
  · exact absurd h (by simp)
  · next hcond =>
    simp only [Except.ok.injEq] at h
    subst h
    refine ⟨rfl, ?_⟩
    rcases not_and_or.mp hcond with h3 | h3
    · exact Or.inl (not_not.mp h3)
    · right
      cases hb : (segsToPath (resolveAbs root) ++ ['/']).isPrefixOf
          (segsToPath (resolveFromRoot (resolveAbs root) (normSlashes entryName))) with
      | false => exact absurd hb h3
      | true => exact hb

theorem extractEpub_writes_within (root : List Char) (entries : List ZipEntry)
    (dest content : List Char)
    (hmem : (dest, content) ∈ (extractEpub root entries).1) : withinRoot root dest := by
  induction entries with
  | nil => simp [extractEpub] at hmem
  | cons e rest ih =>
    cases hr : resolveArchiveEntryPath root e.name with
    | error u =>
      have hred : extractEpub root (e :: rest) = ([], some ()) := by
        rw [extractEpub, hr]
      rw [hred] at hmem
      simp at hmem
    | ok d =>
      by_cases hdir : e.name.getLast? = some '/'
      · have hred : extractEpub root (e :: rest) = extractEpub root rest := by
          rw [extractEpub, hr]; simp [hdir]
        rw [hred] at hmem
        exact ih hmem
      · have hred : extractEpub root (e :: rest)
            = ((d, e.data) :: (extractEpub root rest).1, (extractEpub root rest).2) := by
          rw [extractEpub, hr]; simp [hdir]
        rw [hred] at hmem
        simp only [List.mem_cons, Prod.mk.injEq] at hmem
        cases hmem with
        | inl h2 =>
          obtain ⟨h3, _⟩ := h2
          subst h3
          exact (resolveArchiveEntryPath_ok root e.name dest hr).2
        | inr h2 => exact ih h2

/-- C2: the sandbox resolver raises `UnsafePathError` exactly when the
resolved path (backslashes normalized) is neither the extraction root nor
strictly beneath it; in particular `../escape.txt` is rejected, and every
file extraction actually writes lies within the root. -/
theorem c2_sandbox_resolver :
    (∀ root entryName : List Char,
      resolveArchiveEntryPath root entryName = .error () ↔
        ¬ withinRoot root (resolvedEntryDest root entryName)) ∧
    resolveArchiveEntryPath "/tmp/extract".data "../escape.txt".data = .error () ∧
    (∀ (root : List Char) (entries : List ZipEntry) (dest content : List Char),
      (dest, content) ∈ (extractEpub root entries).1 → withinRoot root dest) := by
  refine ⟨resolveArchiveEntryPath_error_iff, by rfl, extractEpub_writes_within⟩

/-- Witness for C2: a benign entry is written inside the root, and the
escaping entry name is rejected. -/
theorem c2_witness :
    withinRoot "/tmp/extract".data "/tmp/extract/OEBPS/a.xhtml".data ∧
    resolveArchiveEntryPath "/tmp/extract".data "../escape.txt".data = .error () := by
  constructor
  · exact c2_sandbox_resolver.2.2 "/tmp/extract".data
      [⟨"OEBPS/a.xhtml".data, "hi".data, true⟩]
      "/tmp/extract/OEBPS/a.xhtml".data "hi".data (by decide)
  · exact c2_sandbox_resolver.2.1

/-- Bridge from the boolean prefix test to the prefix relation. -/
theorem prefixOfIff {l₁ l₂ : List Char} : l₁.isPrefixOf l₂ = true ↔ l₁ <+: l₂ :=
  List.isPrefixOf_iff_prefix

theorem containsSub_eq_true_iff {pat s : List Char} :
    containsSub pat s = true ↔ pat <:+: s := by
  induction s with
  | nil =>
    unfold containsSub
    rw [List.isEmpty_iff]
    constructor
    · intro h; simp [h]
    · intro h
      obtain ⟨s1, t1, hemp⟩ := h
      simp only [List.append_eq_nil] at hemp
      exact hemp.1.2
  | cons c cs ih =>
    unfold containsSub
    rw [Bool.or_eq_true, prefixOfIff, ih, List.infix_cons_iff]

theorem splitFirst_some_contains {pat s pre post : List Char}
    (h : splitFirst pat s = some (pre, post)) : containsSub pat s = true := by
  induction s generalizing pre post with
  | nil =>
    unfold splitFirst at h
    unfold containsSub
    split at h
    · next hp => exact hp
    · exact absurd h (by simp)
  | cons c cs ih =>
    unfold splitFirst at h
    unfold containsSub
    rw [Bool.or_eq_true]
    by_cases hp : pat.isPrefixOf (c :: cs) = true
    · exact Or.inl hp
    · rw [if_neg (by simpa using hp)] at h
      cases hs : splitFirst pat cs with
      | none => rw [hs] at h; exact absurd h (by simp)
      | some pr =>
        rw [hs] at h
        exact Or.inr (ih hs)

theorem styleTag_contains_inline (format : OutputFormat) :
    containsSub (inlineClassFor format) (styleTagFor format) = true := by
  cases format <;> decide

theorem styleTag_contains_block (format : OutputFormat) :
    containsSub (blockClassFor format) (styleTagFor format) = true := by
  cases format <;> decide

theorem containsSub_of_mid (a b : List Char) {pat mid : List Char}
    (h : containsSub pat mid = true) : containsSub pat (a ++ mid ++ b) = true := by
  rw [containsSub_eq_true_iff] at h ⊢
  exact h.trans ⟨a, b, by simp⟩

/-- C8: the style-injection step is idempotent; it either leaves the
document unchanged or inserts exactly one style block immediately before the
first closing head tag; and with no closing head tag present it is a no-op. -/
theorem c8_append_styles (format : OutputFormat) (content : List Char) :
    appendStylesIfMissingByFormat format (appendStylesIfMissingByFormat format content)
      = appendStylesIfMissingByFormat format content ∧
    (appendStylesIfMissingByFormat format content = content ∨
      ∃ pre post, splitFirst "</head>".data content = some (pre, post) ∧
        appendStylesIfMissingByFormat format content
          = pre ++ styleTagFor format ++ "</head>".data ++ post) ∧
    (containsSub "</head>".data content = false →
      appendStylesIfMissingByFormat format content = content) := by
  by_cases hg : (containsSub (inlineClassFor format) content &&
      containsSub (blockClassFor format) content) = true
  · have hf : appendStylesIfMissingByFormat format content = content := by
      unfold appendStylesIfMissingByFormat
      rw [if_pos hg]
    refine ⟨?_, Or.inl hf, fun _ => hf⟩
    rw [hf, hf]
  · cases hsp : splitFirst "</head>".data content with
    | none =>
      have hf : appendStylesIfMissingByFormat format content = content := by
        unfold appendStylesIfMissingByFormat
        rw [if_neg hg, hsp]
      refine ⟨?_, Or.inl hf, fun _ => hf⟩
      rw [hf, hf]
    | some pr =>
      obtain ⟨pre, post⟩ := pr
      have hf : appendStylesIfMissingByFormat format content
          = pre ++ styleTagFor format ++ "</head>".data ++ post := by
        unfold appendStylesIfMissingByFormat
        rw [if_neg hg, hsp]
      have hguard2 : (containsSub (inlineClassFor format)
            (pre ++ styleTagFor format ++ "</head>".data ++ post) &&
          containsSub (blockClassFor format)
            (pre ++ styleTagFor format ++ "</head>".data ++ post)) = true := by
        rw [Bool.and_eq_true]
        constructor
        · have h1 := containsSub_of_mid pre ("</head>".data ++ post)
            (styleTag_contains_inline format)
          simpa [List.append_assoc] using h1
        · have h1 := containsSub_of_mid pre ("</head>".data ++ post)
            (styleTag_contains_block format)
          simpa [List.append_assoc] using h1
      refine ⟨?_, Or.inr ⟨pre, post, rfl, hf⟩, ?_⟩
      · rw [hf]
        unfold appendStylesIfMissingByFormat
        rw [if_pos hguard2]
      · intro hnone
        exact absurd (splitFirst_some_contains hsp) (by simp [hnone])

/-- Witness for C8's conditional no-op part at a concrete headless document. -/
theorem c8_witness :
    appendStylesIfMissingByFormat .svg "<p>no head here</p>".data
      = "<p>no head here</p>".data :=
  (c8_append_styles .svg "<p>no head here</p>".data).2.2 (by decide)

/-- Independent per-piece processing of a scanned document: text pieces are
copied verbatim, each math node is handed to the callback on its own, and
successful conversions are counted. -/
def scanReplace (format : OutputFormat) (converters : Converters) :
    List (List Char ⊕ List Char) → List Char × Nat
  | [] => ([], 0)
  | .inl t :: rest =>
    let r := scanReplace format converters rest
    (t ++ r.1, r.2)
  | .inr node :: rest =>
    let p := processNode format converters node
    let r := scanReplace format converters rest
    (p.1 ++ r.1, (if p.2 then 1 else 0) + r.2)

theorem replaceMathF_eq_scanReplace (format : OutputFormat) (converters : Converters) :
    ∀ (fuel : Nat) (s : List Char), s.length ≤ fuel →
      replaceMathF format converters fuel s
        = scanReplace format converters (mathScanF fuel s) := by
  intro fuel
  induction fuel with
  | zero =>
    intro s hs
    have h0 : s = [] := List.length_eq_zero.mp (Nat.le_zero.mp hs)
    subst h0
    simp [replaceMathF, mathScanF, scanReplace]
  | succ f ih =>
    intro s hs
    rw [replaceMathF, mathScanF]
    cases ho : findOpenSplit s with
    | none => simp [scanReplace]
    | some pr =>
      obtain ⟨pre, suf⟩ := pr
      simp only
      cases hc : findCloseSplit (suf.drop 5) with
      | none => simp [scanReplace]
      | some mr =>
        obtain ⟨mid, rest⟩ := mr
        simp only
        have hlt : rest.length < s.length := scanStep_decreasing ho hc
        rw [ih rest (by omega)]
        simp [scanReplace, List.append_assoc]

theorem replaceMath_eq_scanReplace (format : OutputFormat) (converters : Converters)
    (s : List Char) :
    replaceMath format converters s = scanReplace format converters (mathScan s) :=
  replaceMathF_eq_scanReplace format converters s.length s (le_refl _)

/-- Node-level failure modes of the claim: the renderer for the configured
format raises, or returns malformed output (vector output whose trimmed text
does not begin with an `<svg` tag, raster output empty or containing a
non-base64 character). -/
def rendererFailsOn (format : OutputFormat) (converters : Converters)
    (mathXml : List Char) : Prop :=
  match format with
  | .svg =>
    converters.svg mathXml (displayModeOf mathXml) = .error () ∨
      ∃ out, converters.svg mathXml (displayModeOf mathXml) = .ok out ∧ svgShapeOk out = false
  | .png =>
    converters.png mathXml (displayModeOf mathXml) = .error () ∨
      ∃ b, converters.png mathXml (displayModeOf mathXml) = .ok b ∧ base64Ok b = false

/-- C4: a math node whose renderer raises or returns malformed output is
left verbatim and uncounted, and the whole-document replacement is the
independent per-node map over the scanned pieces, so one node's failure
never aborts the remaining nodes or the pipeline. -/
theorem c4_node_failure_local (format : OutputFormat) (converters : Converters)
    (mathXml : List Char) (h : rendererFailsOn format converters mathXml) :
    processNode format converters mathXml = (mathXml, false) ∧
    ∀ s, replaceMath format converters s = scanReplace format converters (mathScan s) := by
  refine ⟨?_, replaceMath_eq_scanReplace format converters⟩
  cases format with
  | svg =>
    unfold rendererFailsOn at h
    unfold processNode
    dsimp only
    cases h with
    | inl herr => rw [herr]
    | inr hmal =>
      obtain ⟨out, hok, hbad⟩ := hmal
      rw [hok]
      simp [hbad]
  | png =>
    unfold rendererFailsOn at h
    unfold processNode
    dsimp only
    cases h with
    | inl herr => rw [herr]
    | inr hmal =>
      obtain ⟨b, hok, hbad⟩ := hmal
      rw [hok]
      simp [hbad]

/-- Always-raising renderers for the C4 witness. -/
def cvFail : Converters := ⟨fun _ _ => .error (), fun _ _ => .error ()⟩

/-- Concrete math node for the C4 witness. -/
def c4Node : List Char := "<math><mi>x</mi></math>".data

/-- Witness for C4: with raising renderers, the node is left verbatim and
uncounted, and a surrounding document maps each node independently. -/
theorem c4_witness :
    processNode .svg cvFail c4Node = (c4Node, false) ∧
    replaceMath .svg cvFail "<p>a</p><math><mi>x</mi></math><p>b</p>".data
      = scanReplace .svg cvFail (mathScan "<p>a</p><math><mi>x</mi></math><p>b</p>".data) := by
  have h := c4_node_failure_local .svg cvFail c4Node (Or.inl rfl)
  exact ⟨h.1, h.2 _⟩

/-- Per-character expansion equivalent to the four sequential global
replacements of `escapeAttributeValue`. -/
def escChar (c : Char) : List Char :=
  if c = '&' then "&amp;".data
  else if c = dquote then "&quot;".data
  else if c = '<' then "&lt;".data
  else if c = '>' then "&gt;".data
  else [c]

theorem escapeAttributeValue_eq_flatMap (value : List Char) :
    escapeAttributeValue value = value.flatMap escChar := by
  unfold escapeAttributeValue subChar
  rw [List.flatMap_assoc, List.flatMap_assoc, List.flatMap_assoc]
  congr 1
  funext c
  by_cases h1 : c = '&'
  · subst h1; rfl
  · by_cases h2 : c = dquote
    · subst h2
      rw [if_neg h1]
      rfl
    · by_cases h3 : c = '<'
      · subst h3
        rw [if_neg h1]
        rfl
      · by_cases h4 : c = '>'
        · subst h4
          rw [if_neg h1]
          rfl
        · unfold escChar
          rw [if_neg h1, if_neg h2, if_neg h3, if_neg h4, if_neg h1]
          simp [List.flatMap, if_neg h2, if_neg h3, if_neg h4]

/-- Every occurrence of `&` begins one of the four emitted entities. -/
def ampOk : List Char → Bool
  | [] => true
  | c :: cs =>
    if c = '&' then
      ("amp;".data.isPrefixOf cs || "quot;".data.isPrefixOf cs ||
        "lt;".data.isPrefixOf cs || "gt;".data.isPrefixOf cs) && ampOk cs
    else ampOk cs

theorem isPrefixOf_append_self (l t : List Char) : l.isPrefixOf (l ++ t) = true := by
  rw [prefixOfIff]
  exact ⟨t, rfl⟩

theorem ampOk_entity_block {c : Char} {rest : List Char} (h : ampOk rest = true) :
    ampOk (escChar c ++ rest) = true := by
  by_cases h1 : c = '&'
  · subst h1
    show ampOk ('&' :: ("amp;".data ++ rest)) = true
    unfold ampOk
    rw [if_pos rfl, Bool.and_eq_true, Bool.or_eq_true, Bool.or_eq_true, Bool.or_eq_true]
    refine ⟨Or.inl (Or.inl (Or.inl (isPrefixOf_append_self _ _))), ?_⟩
    simpa [ampOk] using h
  · by_cases h2 : c = dquote
    · subst h2
      show ampOk ('&' :: ("quot;".data ++ rest)) = true
      unfold ampOk
      rw [if_pos rfl, Bool.and_eq_true, Bool.or_eq_true, Bool.or_eq_true, Bool.or_eq_true]
      refine ⟨Or.inl (Or.inl (Or.inr (isPrefixOf_append_self _ _))), ?_⟩
      simpa [ampOk] using h
    · by_cases h3 : c = '<'
      · subst h3
        show ampOk ('&' :: ("lt;".data ++ rest)) = true
        unfold ampOk
        rw [if_pos rfl, Bool.and_eq_true, Bool.or_eq_true, Bool.or_eq_true, Bool.or_eq_true]
        refine ⟨Or.inl (Or.inr (isPrefixOf_append_self _ _)), ?_⟩
        simpa [ampOk] using h
      · by_cases h4 : c = '>'
        · subst h4
          show ampOk ('&' :: ("gt;".data ++ rest)) = true
          unfold ampOk
          rw [if_pos rfl, Bool.and_eq_true, Bool.or_eq_true, Bool.or_eq_true, Bool.or_eq_true]
          refine ⟨Or.inr (isPrefixOf_append_self _ _), ?_⟩
          simpa [ampOk] using h
        · show ampOk (escChar c ++ rest) = true
          unfold escChar
          rw [if_neg h1, if_neg h2, if_neg h3, if_neg h4]
          show ampOk (c :: rest) = true
          unfold ampOk
          rw [if_neg h1]
          exact h

theorem ampOk_escape (value : List Char) :
    ampOk (escapeAttributeValue value) = true := by
  rw [escapeAttributeValue_eq_flatMap]
  induction value with
  | nil => rfl
  | cons c cs ih =>
    rw [List.flatMap_cons]
    exact ampOk_entity_block ih

theorem escape_no_raw (value : List Char) :
    dquote ∉ escapeAttributeValue value ∧ '<' ∉ escapeAttributeValue value ∧
      '>' ∉ escapeAttributeValue value := by
  rw [escapeAttributeValue_eq_flatMap]
  refine ⟨?_, ?_, ?_⟩ <;>
  · intro hmem
    rw [List.mem_flatMap] at hmem
    obtain ⟨c, _, hc⟩ := hmem
    unfold escChar at hc
    by_cases h1 : c = '&'
    · rw [if_pos h1] at hc; revert hc; decide
    · rw [if_neg h1] at hc
      by_cases h2 : c = dquote
      · rw [if_pos h2] at hc; revert hc; decide
      · rw [if_neg h2] at hc
        by_cases h3 : c = '<'
        · rw [if_pos h3] at hc; revert hc; decide
        · rw [if_neg h3] at hc
          by_cases h4 : c = '>'
          · rw [if_pos h4] at hc; revert hc; decide
          · rw [if_neg h4] at hc
            simp only [List.mem_singleton] at hc
            subst hc
            first
            | exact h2 rfl
            | exact h3 rfl
            | exact h4 rfl

/-- C10: alternative text is escaped - `&`, `"`, `<`, `>` become entities -
before being embedded, the raster `alt` attribute and the vector
`aria-label` attribute carry exactly the escaped string, and the escaped
value contains no raw `"`, `<`, `>` and only entity-starting `&`. -/
theorem c10_alt_text_escaped :
    (∀ value : List Char,
      dquote ∉ escapeAttributeValue value ∧ '<' ∉ escapeAttributeValue value ∧
        '>' ∉ escapeAttributeValue value ∧ ampOk (escapeAttributeValue value) = true) ∧
    (∀ base64Png className : List Char, ∀ altText : Option (List Char),
      ∃ pre, buildImgTagFromBase64 base64Png className altText
        = pre ++ " alt=".data ++
            dquote :: escapeAttributeValue (altText.getD "math".data) ++
            dquote :: " />".data) ∧
    (∀ svg className a : List Char, a ≠ [] →
      hasAttrEqQuote "aria-label".data
        (injectRoleStep (injectXmlnsStep (injectClassStep svg className))) = false →
      svgOpenAt (injectRoleStep (injectXmlnsStep (injectClassStep svg className))) = true →
      ∃ rest, injectSvgAttributes svg className (some a)
        = "<svg aria-label=".data ++ dquote :: escapeAttributeValue a ++ dquote :: rest) := by
  refine ⟨?_, ?_, ?_⟩
  · intro value
    obtain ⟨h1, h2, h3⟩ := escape_no_raw value
    exact ⟨h1, h2, h3, ampOk_escape value⟩
  · intro base64Png className altText
    refine ⟨"<img class=".data ++ dquote :: className ++ dquote :: " src=".data ++
      dquote :: "data:image/png;base64,".data ++ base64Png ++ [dquote], ?_⟩
    unfold buildImgTagFromBase64
    simp [List.append_assoc]
  · intro svg className a ha hAria hOpen
    unfold injectSvgAttributes
    dsimp only
    rw [if_neg ha]
    unfold injectAriaStep
    simp only [hAria, Bool.false_eq_true, if_false]
    unfold replaceSvgOpen
    rw [if_pos hOpen]
    refine ⟨(injectRoleStep (injectXmlnsStep (injectClassStep svg className))).drop 4, ?_⟩
    simp [List.append_assoc]

/-- Concrete renderer output for the C10 witness. -/
def c10svg : List Char := "<svg height=\"2\"><path d=\"M0\"></path></svg>".data

/-- Concrete alternative text for the C10 witness. -/
def c10alt : List Char := "x<y&\"z".data

/-- Witness for C10: at a concrete SVG and alternative text, the aria-label
carries exactly the escaped string. -/
theorem c10_witness :
    ∃ rest, injectSvgAttributes c10svg "math-svg math-svg-inline".data (some c10alt)
      = "<svg aria-label=".data ++ dquote :: escapeAttributeValue c10alt ++ dquote :: rest :=
  c10_alt_text_escaped.2.2 c10svg "math-svg math-svg-inline".data c10alt
    (by decide) (by decide) (by decide)

/-- A plain directory-entry name as the filesystem walk produces it: a
nonempty name that is not `.` or `..` and contains neither separator. -/
def validName (s : List Char) : Prop :=
  s ≠ [] ∧ s ≠ ['.'] ∧ s ≠ ['.', '.'] ∧ '/' ∉ s ∧ bslash ∉ s

instance validNameDecidable (s : List Char) : Decidable (validName s) := by
  unfold validName
  infer_instance

/-- An archive-relative path as `getAllFiles` plus `path.relative` produce
it: the slash-join of a nonempty chain of plain entry names. -/
def validEntryName (n : List Char) : Prop :=
  ∃ segs, segs ≠ [] ∧ (∀ s ∈ segs, validName s) ∧ n = joinSegs segs

theorem splitSegs_no_slash {s : List Char} (h : '/' ∉ s) : splitSegs s = [s] := by
  induction s with
  | nil => rfl
  | cons c cs ih =>
    have hc : ¬ c = '/' := fun he => h (he ▸ List.mem_cons_self c cs)
    have hcs : '/' ∉ cs := fun hm => h (List.mem_cons_of_mem c hm)
    rw [splitSegs, if_neg hc, ih hcs]

theorem splitSegs_append_slash {s t : List Char} (h : '/' ∉ s) :
    splitSegs (s ++ '/' :: t) = s :: splitSegs t := by
  induction s with
  | nil => simp [splitSegs]
  | cons c cs ih =>
    have hc : ¬ c = '/' := fun he => h (he ▸ List.mem_cons_self c cs)
    have hcs : '/' ∉ cs := fun hm => h (List.mem_cons_of_mem c hm)
    rw [List.cons_append, splitSegs, if_neg hc, ih hcs]

theorem splitSegs_joinSegs {segs : List (List Char)} (hne : segs ≠ [])
    (h : ∀ s ∈ segs, '/' ∉ s) : splitSegs (joinSegs segs) = segs := by
  induction segs with
  | nil => exact absurd rfl hne
  | cons s rest ih =>
    cases rest with
    | nil => exact splitSegs_no_slash (h s (List.mem_cons_self s []))
    | cons s2 rest2 =>
      rw [joinSegs, splitSegs_append_slash (h s (List.mem_cons_self s _))]
      rw [ih (by simp) (fun q hq => h q (List.mem_cons_of_mem s hq))]

theorem resolveSegs_app {segs : List (List Char)} (base : List (List Char))
    (h : ∀ s ∈ segs, s ≠ [] ∧ s ≠ ['.'] ∧ s ≠ ['.', '.']) :
    resolveSegs base segs = base ++ segs := by
  induction segs generalizing base with
  | nil => simp [resolveSegs]
  | cons s rest ih =>
    obtain ⟨h1, h2, h3⟩ := h s (List.mem_cons_self s rest)
    rw [resolveSegs, if_neg (by simp [h1, h2]), if_neg h3]
    rw [ih (base ++ [s]) (fun q hq => h q (List.mem_cons_of_mem s hq))]
    simp

theorem joinSegs_ne_nil {segs : List (List Char)} (hne : segs ≠ [])
    (h : ∀ s ∈ segs, s ≠ []) : joinSegs segs ≠ [] := by
  cases segs with
  | nil => exact absurd rfl hne
  | cons s rest =>
    cases rest with
    | nil => exact h s (List.mem_cons_self s [])
    | cons s2 rest2 =>
      rw [joinSegs]
      simp [h s (List.mem_cons_self s _)]

theorem joinSegs_append {a b : List (List Char)} (ha : a ≠ []) (hb : b ≠ []) :
    joinSegs (a ++ b) = joinSegs a ++ '/' :: joinSegs b := by
  induction a with
  | nil => exact absurd rfl ha
  | cons s rest ih =>
    cases rest with
    | nil =>
      cases b with
      | nil => exact absurd rfl hb
      | cons b1 bs => simp [joinSegs]
    | cons s2 rest2 =>
      have hj := ih (by simp)
      rw [show (s2 :: rest2) ++ b = s2 :: (rest2 ++ b) by simp] at hj
      show s ++ '/' :: joinSegs (s2 :: (rest2 ++ b))
        = (s ++ '/' :: joinSegs (s2 :: rest2)) ++ '/' :: joinSegs b
      rw [hj]
      simp

theorem mem_joinSegs {c : Char} {segs : List (List Char)} (h : c ∈ joinSegs segs) :
    c = '/' ∨ ∃ s ∈ segs, c ∈ s := by
  induction segs with
  | nil => simp [joinSegs] at h
  | cons s rest ih =>
    cases rest with
    | nil =>
      right
      exact ⟨s, List.mem_cons_self s [], h⟩
    | cons s2 rest2 =>
      rw [joinSegs] at h
      rw [List.mem_append] at h
      cases h with
      | inl h2 => exact Or.inr ⟨s, List.mem_cons_self s _, h2⟩
      | inr h2 =>
        rw [List.mem_cons] at h2
        cases h2 with
        | inl h3 => exact Or.inl h3
        | inr h3 =>
          cases ih h3 with
          | inl h4 => exact Or.inl h4
          | inr h4 =>
            obtain ⟨q, hq, hcq⟩ := h4
            exact Or.inr ⟨q, List.mem_cons_of_mem s hq, hcq⟩

theorem normSlashes_id {s : List Char} (h : bslash ∉ s) : normSlashes s = s := by
  induction s with
  | nil => rfl
  | cons c cs ih =>
    have hc : ¬ c = bslash := fun he => h (he ▸ List.mem_cons_self c cs)
    have hcs : bslash ∉ cs := fun hm => h (List.mem_cons_of_mem c hm)
    show (if c = bslash then '/' else c) :: normSlashes cs = c :: cs
    rw [if_neg hc, ih hcs]

theorem joinSegs_getLast_ne_slash {segs : List (List Char)} (hne : segs ≠ [])
    (h : ∀ s ∈ segs, s ≠ [] ∧ '/' ∉ s) :
    (joinSegs segs).getLast? ≠ some '/' := by
  induction segs with
  | nil => exact absurd rfl hne
  | cons s rest ih =>
    cases rest with
    | nil =>
      obtain ⟨h1, h2⟩ := h s (List.mem_cons_self s [])
      intro hc
      exact h2 (List.mem_of_mem_getLast? hc)
    | cons s2 rest2 =>
      have ht : joinSegs (s2 :: rest2) ≠ [] :=
        joinSegs_ne_nil (by simp)
          (fun q hq => (h q (List.mem_cons_of_mem s hq)).1)
      show (s ++ '/' :: joinSegs (s2 :: rest2)).getLast? ≠ some '/'
      rw [List.getLast?_append_of_ne_nil s (by simp)]
      rw [show ('/' :: joinSegs (s2 :: rest2)) = ['/'] ++ joinSegs (s2 :: rest2) by simp]
      rw [List.getLast?_append_of_ne_nil ['/'] ht]
      exact ih (by simp) (fun q hq => h q (List.mem_cons_of_mem s hq))

theorem resolve_valid_entry {root n : List Char}
    (hroot1 : segsToPath (resolveAbs root) = root)
    (hroot2 : resolveAbs root ≠ [])
    (hv : validEntryName n) :
    resolveArchiveEntryPath root n = .ok (root ++ '/' :: n) := by
  obtain ⟨segs, hne, hvn, hjoin⟩ := hv
  subst hjoin
  have hnoslash : ∀ s ∈ segs, '/' ∉ s := fun s hs => (hvn s hs).2.2.2.1
  have hnonil : ∀ s ∈ segs, s ≠ [] := fun s hs => (hvn s hs).1
  have hnb : bslash ∉ joinSegs segs := by
    intro hmem
    cases mem_joinSegs hmem with
    | inl h2 => exact absurd h2 (by decide)
    | inr h2 =>
      obtain ⟨q, hq, hcq⟩ := h2
      exact (hvn q hq).2.2.2.2 hcq
  have hhead : ¬ (joinSegs segs).head? = some '/' := by
    cases segs with
    | nil => exact absurd rfl hne
    | cons s rest =>
      have h2 : '/' ∉ s := hnoslash s (List.mem_cons_self s rest)
      obtain ⟨c, cs, hs⟩ : ∃ c cs, s = c :: cs := by
        cases hs0 : s with
        | nil => exact absurd hs0 (hnonil s (List.mem_cons_self s rest))
        | cons c cs => exact ⟨c, cs, rfl⟩
      subst hs
      have hc : ¬ c = '/' := fun hcc => h2 (hcc ▸ List.mem_cons_self c cs)
      cases rest with
      | nil => simpa [joinSegs] using hc
      | cons s2 rest2 =>
        show ¬ ((c :: cs) ++ '/' :: joinSegs (s2 :: rest2)).head? = some '/'
        simpa using hc
  have hnorm : normSlashes (joinSegs segs) = joinSegs segs := normSlashes_id hnb
  have hsplit : splitSegs (joinSegs segs) = segs := splitSegs_joinSegs hne hnoslash
  have happ : resolveSegs (resolveAbs root) segs = resolveAbs root ++ segs :=
    resolveSegs_app (resolveAbs root)
      (fun s hs => ⟨(hvn s hs).1, (hvn s hs).2.1, (hvn s hs).2.2.1⟩)
  have hfrom : resolveFromRoot (resolveAbs root) (joinSegs segs) = resolveAbs root ++ segs := by
    unfold resolveFromRoot
    rw [if_neg hhead, hsplit, happ]
  have hr : '/' :: joinSegs (resolveAbs root) = root := hroot1
  have hpath : segsToPath (resolveAbs root ++ segs) = root ++ '/' :: joinSegs segs := by
    show '/' :: joinSegs (resolveAbs root ++ segs) = root ++ '/' :: joinSegs segs
    rw [joinSegs_append hroot2 hne]
    conv_lhs => rw [show ('/' :: (joinSegs (resolveAbs root) ++ '/' :: joinSegs segs) : List Char)
      = ('/' :: joinSegs (resolveAbs root)) ++ '/' :: joinSegs segs from by simp]
    rw [hr]
  have hcombined : segsToPath (resolveFromRoot (resolveAbs root)
      (normSlashes (joinSegs segs))) = root ++ '/' :: joinSegs segs := by
    rw [hnorm, hfrom, hpath]
  have hpre : (root ++ ['/']).isPrefixOf (root ++ '/' :: joinSegs segs) = true :=
    prefixOfIff.mpr ⟨joinSegs segs, by simp⟩
  unfold resolveArchiveEntryPath
  dsimp only
  rw [hcombined, hroot1]
  rw [if_neg ?hc]
  case hc =>
    intro hco
    rw [hpre] at hco
    exact absurd hco.2 (by simp)

theorem extract_valid_entries {root : List Char} (es : List ZipEntry)
    (hroot1 : segsToPath (resolveAbs root) = root)
    (hroot2 : resolveAbs root ≠ [])
    (hval : ∀ e ∈ es, validEntryName e.name) :
    extractEpub root es = (es.map (fun e => (root ++ '/' :: e.name, e.data)), none) := by
  induction es with
  | nil => rfl
  | cons e rest ih =>
    have hv := hval e (List.mem_cons_self e rest)
    have hres := resolve_valid_entry hroot1 hroot2 hv
    have hlast : ¬ e.name.getLast? = some '/' := by
      obtain ⟨segs, hne, hvn, hjoin⟩ := hv
      rw [hjoin]
      exact joinSegs_getLast_ne_slash hne
        (fun s hs => ⟨(hvn s hs).1, (hvn s hs).2.2.2.1⟩)
    rw [extractEpub, hres]
    rw [ih (fun q hq => hval q (List.mem_cons_of_mem e hq))]
    simp [hlast]

theorem lookup_filter_perm {k : List Char} {tree : List (List Char × List Char)}
    {d : List Char} (hnd : (tree.map Prod.fst).Nodup)
    (hl : lookupPath k tree = some d) :
    ((k, d) :: tree.filter fun pc => decide (pc.1 ≠ k)).Perm tree := by
  induction tree with
  | nil => simp [lookupPath] at hl
  | cons pc rest ih =>
    rw [List.map_cons, List.nodup_cons] at hnd
    obtain ⟨hnotin, hndrest⟩ := hnd
    by_cases hpc : pc.1 = k
    · rw [lookupPath, if_pos hpc] at hl
      simp only [Option.some.injEq] at hl
      subst hl
      have hfr : (rest.filter fun qc => decide (qc.1 ≠ k)) = rest := by
        rw [List.filter_eq_self]
        intro qc hq
        simp only [decide_eq_true_eq]
        intro he
        exact hnotin (hpc ▸ he ▸ List.mem_map_of_mem Prod.fst hq)
      rw [List.filter_cons, if_neg (by simp [hpc])]
      rw [hfr]
      have hpceq : (k, pc.2) = pc := by
        rw [← hpc]
      rw [hpceq]
    · rw [lookupPath, if_neg hpc] at hl
      rw [List.filter_cons, if_pos (by simpa using hpc)]
      have hperm := ih hndrest hl
      exact (List.Perm.swap pc (k, d) _).trans (hperm.cons pc)

/-- C7 amended: for a well-formed scratch tree - distinct archive paths that
are slash-joins of plain entry names (as the filesystem walk produces) with
no backslash in any name, containing the root-level `mimetype` file - and a
canonical absolute extraction root, packing with `repackEpub` and unpacking
with `extractEpub` succeeds and reproduces exactly the original set of
archive-relative paths with their byte content, whatever comparator the
runtime's locale collation turns out to be (the conclusion is a permutation,
so entry order does not matter). -/
theorem c7_roundtrip_amended (r : List Char → List Char → Prop) [DecidableRel r]
    (root : List Char) (tree : List (List Char × List Char))
    (d : List Char)
    (hroot1 : segsToPath (resolveAbs root) = root)
    (hroot2 : resolveAbs root ≠ [])
    (hnd : (tree.map Prod.fst).Nodup)
    (hval : ∀ pc ∈ tree, validEntryName pc.1)
    (hl : lookupPath "mimetype".data tree = some d) :
    ∃ es, repackEpub r tree = .ok es ∧
      (extractEpub root es).2 = none ∧
      ((extractEpub root es).1).Perm (tree.map fun pc => (root ++ '/' :: pc.1, pc.2)) := by
  refine ⟨ZipEntry.mk "mimetype".data d false ::
    (List.insertionSort (entryLe r) (tree.filter fun pc => decide (pc.1 ≠ "mimetype".data))).map
      (fun pc => ZipEntry.mk pc.1 pc.2 true), ?_, ?_⟩
  · unfold repackEpub
    rw [hl]
  have hvalid_es : ∀ e ∈ (ZipEntry.mk "mimetype".data d false ::
      (List.insertionSort (entryLe r) (tree.filter fun pc => decide (pc.1 ≠ "mimetype".data))).map
        (fun pc => ZipEntry.mk pc.1 pc.2 true)), validEntryName e.name := by
    intro e he
    rw [List.mem_cons] at he
    cases he with
    | inl hmt =>
      subst hmt
      exact ⟨["mimetype".data], by simp, by intro q hq; simp at hq; subst hq; decide, rfl⟩
    | inr hmem =>
      rw [List.mem_map] at hmem
      obtain ⟨pc, hpc, he2⟩ := hmem
      have hpc2 : pc ∈ tree.filter fun pc => decide (pc.1 ≠ "mimetype".data) :=
        (List.perm_insertionSort (entryLe r) _).mem_iff.mp hpc
      have hpc3 : pc ∈ tree := List.mem_of_mem_filter hpc2
      rw [← he2]
      exact hval pc hpc3
  have hextract := extract_valid_entries _ hroot1 hroot2 hvalid_es
  rw [hextract]
  refine ⟨rfl, ?_⟩
  show ((ZipEntry.mk "mimetype".data d false ::
      (List.insertionSort (entryLe r) (tree.filter fun pc => decide (pc.1 ≠ "mimetype".data))).map
        (fun pc => ZipEntry.mk pc.1 pc.2 true)).map
          (fun e => (root ++ '/' :: e.name, e.data))).Perm
    (tree.map fun pc => (root ++ '/' :: pc.1, pc.2))
  rw [List.map_cons, List.map_map]
  have hmapeq : ((fun e : ZipEntry => (root ++ '/' :: e.name, e.data)) ∘
      (fun pc : List Char × List Char => ZipEntry.mk pc.1 pc.2 true))
      = fun pc : List Char × List Char => (root ++ '/' :: pc.1, pc.2) := rfl
  rw [hmapeq]
  have hsortperm : ((List.insertionSort (entryLe r)
        (tree.filter fun pc => decide (pc.1 ≠ "mimetype".data))).map
      (fun pc : List Char × List Char => (root ++ '/' :: pc.1, pc.2))).Perm
      ((tree.filter fun pc => decide (pc.1 ≠ "mimetype".data)).map
        (fun pc : List Char × List Char => (root ++ '/' :: pc.1, pc.2))) :=
    (List.perm_insertionSort (entryLe r) _).map _
  have htreeperm := (lookup_filter_perm hnd hl).map
    (fun pc : List Char × List Char => (root ++ '/' :: pc.1, pc.2))
  rw [List.map_cons] at htreeperm
  exact (hsortperm.cons _).trans htreeperm

/-- Scratch tree with a file whose name contains a backslash (a legal POSIX
file name), for the C7 counterexample. -/
def c7tree : List (List Char × List Char) :=
  [("mimetype".data, "application/epub+zip".data), ('a' :: bslash :: ['b'], "x".data)]

/-- The container `repackEpub` produces for `c7tree` (the filtered tree has
a single non-`mimetype` file, so every comparator yields this container). -/
def c7es : List ZipEntry :=
  [⟨"mimetype".data, "application/epub+zip".data, false⟩,
   ⟨'a' :: bslash :: ['b'], "x".data, true⟩]

/-- C7 counterexample: packing then unpacking does not reproduce the same
set of archive-relative paths for every scratch tree - extraction normalizes
the backslash in the entry name `a\x5cb` to a separator, so the round trip
yields `a/b` and the original path is gone. -/
theorem c7_counterexample :
    repackEpub codePointLe c7tree = .ok c7es ∧
    (extractEpub "/out".data c7es).2 = none ∧
    ¬ ((extractEpub "/out".data c7es).1.Perm
        (c7tree.map fun pc => ("/out".data ++ '/' :: pc.1, pc.2))) ∧
    ("/out/a".data ++ bslash :: ['b'])
      ∈ (c7tree.map fun pc => ("/out".data ++ '/' :: pc.1, pc.2)).map Prod.fst ∧
    ("/out/a".data ++ bslash :: ['b'])
      ∉ (extractEpub "/out".data c7es).1.map Prod.fst := by
  refine ⟨by rfl, by rfl, by decide, by decide, by decide⟩

/-- Well-formed scratch tree for the C7 witness. -/
def c7wtree : List (List Char × List Char) :=
  [("mimetype".data, "application/epub+zip".data),
   ("OEBPS/ch1.xhtml".data, "<p>A</p>".data)]

/-- Witness for C7's amended round trip at a concrete tree and root. -/
theorem c7_witness :
    ∃ es, repackEpub codePointLe c7wtree = .ok es ∧
      (extractEpub "/out".data es).2 = none ∧
      ((extractEpub "/out".data es).1).Perm
        (c7wtree.map fun pc => ("/out".data ++ '/' :: pc.1, pc.2)) := by
  refine c7_roundtrip_amended codePointLe "/out".data c7wtree "application/epub+zip".data
    (by rfl) (by decide) (by decide) ?_ (by rfl)
  intro pc hpc
  rw [show c7wtree = [("mimetype".data, "application/epub+zip".data),
    ("OEBPS/ch1.xhtml".data, "<p>A</p>".data)] from rfl] at hpc
  rw [List.mem_cons, List.mem_cons] at hpc
  rcases hpc with h | h | h
  · subst h
    exact ⟨["mimetype".data], by simp, by intro q hq; simp at hq; subst hq; decide, rfl⟩
  · subst h
    exact ⟨["OEBPS".data, "ch1.xhtml".data], by simp,
      by intro q hq; simp at hq; rcases hq with h2 | h2 <;> (subst h2; decide), rfl⟩
  · simp at h
